import Mathlib

/-!
Shallow embedding of the "mitraillette" dice-game analysis engine
(`src/combinaison.rs`, `src/choix.rs`, `src/stats.rs`, constants from
`src/main.rs`), together with proofs about the properties stated in the
specification.

Modelling conventions:
* Rust `u16` (`Valeur`) and `usize` arithmetic is modelled with `ℕ`; no value
  in the program's operating range overflows.
* The floating-point type `Flottant` (`f32`) is modelled with `ℚ`
  (exact arithmetic).
* Face indices are modelled with `Fin 6`; the source stores `usize` indices
  and indexing the triple-value table out of range would panic, so only
  in-range indices are representable states.
* `HashMap` key grouping is modelled with `List.dedup`/`List.count` over the
  deterministic roll-enumeration order; a `HashMap`'s iteration order is
  unspecified in the source, and none of the modelled quantities depend on
  the order in which the grouped choice-sets are visited.
* The recursive functions of the source are defined through fuel-indexed
  structurally-recursive helpers (so that they remain kernel-computable);
  the recursion equations of the source are recovered as theorems
  (`enumererCombinaisons_eq`, `calcEsperance_eq`, ...).
-/

namespace Mitraillette

/-- `NB_FACES` from `main.rs`: number of faces per die. -/
abbrev NB_FACES : ℕ := 6

/-- `NB_DES_TOT` from `main.rs`: total number of dice one can roll. -/
abbrev NB_DES_TOT : ℕ := 6

/-- Modelled from the spec: the constant `SCORE_MAX` is imported by
`src/stats.rs` from the crate root of its rewrite, which is not under `src/`;
the spec fixes the target score of the game at 10000 points (`stats.rs`
itself also uses the literal `10000` for its win test). -/
def SCORE_MAX : ℕ := 10000

/-- `Combinaison` from `combinaison.rs`: the scoring-pattern variants.
`BrelanDouble` stores its two face indices (`idx_faces: [usize; 2]` in the
source) as two fields. -/
inductive Combinaison where
  | Suite
  | TriplePaire
  | BrelanDouble (idxFace1 idxFace2 : Fin NB_FACES)
  | BrelanSimple (idxFace : Fin NB_FACES) (nbUn nbCinq : ℕ)
  | FacesSimples (nbUn nbCinq : ℕ)
  deriving DecidableEq

/-- `VALEURS_BRELANS` from `Combinaison::valeur`: point value of a triple of
each face. -/
def VALEURS_BRELANS : Fin NB_FACES → ℕ := ![1000, 200, 300, 400, 500, 600]

/-- `Combinaison::valeur` from `combinaison.rs`. -/
def Combinaison.valeur : Combinaison → ℕ
  | .Suite => 500
  | .TriplePaire => 500
  | .BrelanDouble idxFace1 idxFace2 => VALEURS_BRELANS idxFace1 + VALEURS_BRELANS idxFace2
  | .BrelanSimple idxFace nbUn nbCinq => VALEURS_BRELANS idxFace + nbUn * 100 + nbCinq * 50
  | .FacesSimples nbUn nbCinq => nbUn * 100 + nbCinq * 50

/-- `Combinaison::nb_des` from `combinaison.rs`: dice consumed when the
combination is banked. -/
def Combinaison.nbDes : Combinaison → ℕ
  | .Suite => 6
  | .TriplePaire => 6
  | .BrelanDouble _ _ => 6
  | .BrelanSimple _ nbUn nbCinq => 3 + nbUn + nbCinq
  | .FacesSimples nbUn nbCinq => nbUn + nbCinq

/-- `HistogrammeFaces` from `choix.rs`: per-face die count. -/
abbrev HistogrammeFaces := Fin NB_FACES → ℕ

/-- Total number of dice recorded in a histogram (verification device; used
as the fuel of the enumerator and to state "histogram of `n` dice"). -/
def histoSum (histo : HistogrammeFaces) : ℕ := ∑ i, histo i

/-- `histo.iter().map(|&bin| bin/2).sum()` from `enumerer_combinaisons`. -/
def numPaires (histo : HistogrammeFaces) : ℕ :=
  ((List.finRange NB_FACES).map (fun i => histo i / 2)).sum

/-- The `match` applied to each recursively enumerated combination in the
triple-handling loop of `enumerer_combinaisons` (`choix.rs` lines 76-87).
The source's `unreachable!()` arm is modelled as `none`; a theorem at the
end of this file proves that for histograms of at most six dice this arm is
indeed never taken. -/
def combiBrelan (idxFace : Fin NB_FACES) : Combinaison → Option Combinaison
  | .BrelanSimple idxFace2 0 0 =>
      if idxFace2 < idxFace then none
      else some (.BrelanDouble idxFace idxFace2)
  | .FacesSimples nbUn nbCinq => some (.BrelanSimple idxFace nbUn nbCinq)
  | _ => none

/-- One iteration of the triple-handling loop of `enumerer_combinaisons`
(`choix.rs` lines 67-88), with the recursive call abstracted as `recur`. -/
def blocBrelan (histo : HistogrammeFaces) (recur : HistogrammeFaces → List Combinaison)
    (idxFace : Fin NB_FACES) : List Combinaison :=
  if 3 ≤ histo idxFace then
    let histoSansBrelans := Function.update histo idxFace (histo idxFace - 3)
    let choixInternes := recur histoSansBrelans
    Combinaison.BrelanSimple idxFace 0 0 :: choixInternes.filterMap (combiBrelan idxFace)
  else []

/-- The body of `enumerer_combinaisons` from `choix.rs`, with the recursive
call abstracted as `recur`: straight, three-pairs, the per-face triple
blocks, then the loose ones and the loose fives. -/
def enumBody (histo : HistogrammeFaces)
    (recur : HistogrammeFaces → List Combinaison) : List Combinaison :=
  (if ∀ i, histo i = 1 then [Combinaison.Suite] else []) ++
  (if numPaires histo = 3 then [Combinaison.TriplePaire] else []) ++
  ((List.finRange NB_FACES).map (blocBrelan histo recur)).flatten ++
  (List.range (histo 0 % 3)).map (fun nbUn => Combinaison.FacesSimples (nbUn + 1) 0) ++
  (List.range (histo 4 % 3)).map
    (fun nbCinq => Combinaison.FacesSimples (histo 0 % 3) (nbCinq + 1))

/-- Fuel-indexed helper for `enumerer_combinaisons`; the fuel only limits the
recursion depth and `histoSum histo` units are always sufficient. -/
def enumererAux : ℕ → HistogrammeFaces → List Combinaison
  | 0, histo => enumBody histo (fun _ => [])
  | fuel + 1, histo => enumBody histo (enumererAux fuel)

/-- `enumerer_combinaisons` from `choix.rs`. -/
def enumererCombinaisons (histo : HistogrammeFaces) : List Combinaison :=
  enumererAux (histoSum histo) histo

lemma histo_le_histoSum (histo : HistogrammeFaces) (i : Fin NB_FACES) :
    histo i ≤ histoSum histo :=
  Finset.single_le_sum (fun _ _ => Nat.zero_le _) (Finset.mem_univ i)

lemma histoSum_update_sub (histo : HistogrammeFaces) (i : Fin NB_FACES)
    (hi : 3 ≤ histo i) :
    histoSum (Function.update histo i (histo i - 3)) = histoSum histo - 3 := by
  have h1 : histoSum (Function.update histo i (histo i - 3))
      = (histo i - 3) + ∑ j in Finset.univ.erase i, histo j := by
    rw [histoSum, Finset.sum_update_of_mem (Finset.mem_univ i),
      Finset.sdiff_singleton_eq_erase]
  have h2 : histoSum histo = histo i + ∑ j in Finset.univ.erase i, histo j :=
    (Finset.add_sum_erase _ _ (Finset.mem_univ i)).symm
  omega

lemma enumBody_congr (histo : HistogrammeFaces)
    (recur recur' : HistogrammeFaces → List Combinaison)
    (H : ∀ i : Fin NB_FACES, 3 ≤ histo i →
      recur (Function.update histo i (histo i - 3))
        = recur' (Function.update histo i (histo i - 3))) :
    enumBody histo recur = enumBody histo recur' := by
  unfold enumBody
  have hb : (List.finRange NB_FACES).map (blocBrelan histo recur)
      = (List.finRange NB_FACES).map (blocBrelan histo recur') := by
    refine List.map_congr_left (fun i _ => ?_)
    unfold blocBrelan
    by_cases hi : 3 ≤ histo i
    · simp only [if_pos hi, H i hi]
    · simp only [if_neg hi]
  rw [hb]

lemma enumererAux_congr :
    ∀ fuel fuel' (histo : HistogrammeFaces), histoSum histo ≤ fuel →
      histoSum histo ≤ fuel' → enumererAux fuel histo = enumererAux fuel' histo := by
  intro fuel
  induction fuel with
  | zero =>
    intro fuel' histo h0 _
    cases fuel' with
    | zero => rfl
    | succ g =>
      show enumBody histo (fun _ => []) = enumBody histo (enumererAux g)
      refine enumBody_congr _ _ _ (fun i hi => ?_)
      exact absurd (le_trans hi (histo_le_histoSum histo i)) (by omega)
  | succ f ih =>
    intro fuel' histo hf hf'
    cases fuel' with
    | zero =>
      show enumBody histo (enumererAux f) = enumBody histo (fun _ => [])
      refine enumBody_congr _ _ _ (fun i hi => ?_)
      exact absurd (le_trans hi (histo_le_histoSum histo i)) (by omega)
    | succ g =>
      show enumBody histo (enumererAux f) = enumBody histo (enumererAux g)
      refine enumBody_congr _ _ _ (fun i hi => ?_)
      have hsub : histoSum (Function.update histo i (histo i - 3))
          = histoSum histo - 3 := histoSum_update_sub histo i hi
      have h3 : 3 ≤ histoSum histo := le_trans hi (histo_le_histoSum histo i)
      exact ih g _ (by omega) (by omega)

/-- The recursion equation of `enumerer_combinaisons` (`choix.rs`): the
function satisfies the source's literally recursive definition. -/
theorem enumererCombinaisons_eq (histo : HistogrammeFaces) :
    enumererCombinaisons histo = enumBody histo enumererCombinaisons := by
  unfold enumererCombinaisons
  cases hs : histoSum histo with
  | zero =>
    show enumBody histo (fun _ => []) = _
    refine enumBody_congr _ _ _ (fun i hi => ?_)
    exact absurd (le_trans hi (histo_le_histoSum histo i)) (by omega)
  | succ s =>
    show enumBody histo (enumererAux s) = _
    refine enumBody_congr _ _ _ (fun i hi => ?_)
    have hsub := histoSum_update_sub histo i hi
    have h3 : 3 ≤ histoSum histo := le_trans hi (histo_le_histoSum histo i)
    show enumererAux s _ = enumererAux (histoSum (Function.update histo i (histo i - 3))) _
    exact enumererAux_congr s _ _ (by omega) (by omega)

/-! ## Roll enumeration and the roll distribution (`enumerer_choix`, `choix.rs`) -/

/-- The digit-extraction loop of `enumerer_choix` (`choix.rs` lines 22-28):
starting from histogram `histo`, process `nbDes` base-`NB_FACES` digits of
`reste`, incrementing the bin of each digit. -/
def histoOfRollAux : ℕ → ℕ → HistogrammeFaces → HistogrammeFaces
  | 0, _, histo => histo
  | nbDes + 1, reste, histo =>
      let idxFace : Fin NB_FACES := ⟨reste % NB_FACES, Nat.mod_lt _ (by decide)⟩
      histoOfRollAux nbDes (reste / NB_FACES)
        (Function.update histo idxFace (histo idxFace + 1))

/-- Histogram of raw roll number `numComb` of `nbDes` dice, the roll being
read as a base-`NB_FACES` number (`choix.rs` lines 18-28). -/
def histoOfRoll (nbDes numComb : ℕ) : HistogrammeFaces :=
  histoOfRollAux nbDes numComb (fun _ => 0)

/-- The multiset of choice-sets over all `NB_FACES ^ nbDes` raw rolls of
`nbDes` dice (the roll-enumeration loop of `enumerer_choix`). -/
def choixList (nbDes : ℕ) : List (List Combinaison) :=
  (List.range (NB_FACES ^ nbDes)).map
    (fun numComb => enumererCombinaisons (histoOfRoll nbDes numComb))

/-- `enumerer_choix` from `choix.rs`: each distinct choice-set (the `HashMap`
grouping is modelled by `dedup`) paired with its probability, the occurrence
count times `norme = 1 / NB_FACES ^ nbDes`. -/
def enumererChoix (nbDes : ℕ) : List (List Combinaison × ℚ) :=
  (choixList nbDes).dedup.map
    (fun choix => (choix,
      ((choixList nbDes).count choix : ℚ) * (1 / (NB_FACES ^ nbDes : ℚ))))

/-! ## Annotated statistics (`StatsJet::new`, `stats.rs`) -/

/-- `Possibilite` from `stats.rs`. -/
structure Possibilite where
  comb : Combinaison
  valeur : ℕ
  nbDesRelance : ℕ
  deriving DecidableEq

/-- The annotation loop of `StatsJet::new` (`stats.rs` lines 82-96): each
combination is wrapped with its value and with the dice count available on a
reroll, `NB_DES_TOT` when the combination consumes every die in hand. -/
def annoter (nbDes : ℕ) (choix : List Combinaison) : List Possibilite :=
  choix.map (fun comb =>
    let valeur := comb.valeur
    let desRestants := nbDes - comb.nbDes
    let nbDesRelance := if desRestants = 0 then NB_DES_TOT else desRestants
    { comb := comb, valeur := valeur, nbDesRelance := nbDesRelance })

/-- `StatsJet::new` from `stats.rs`: the losing (empty) choice-set is
removed, the rest are annotated and keep their probability. -/
def statsChoix (nbDes : ℕ) : List (List Possibilite × ℚ) :=
  (((choixList nbDes).dedup).filter (fun choix => choix ≠ [])).map
    (fun choix => (annoter nbDes choix,
      ((choixList nbDes).count choix : ℚ) * (1 / (NB_FACES ^ nbDes : ℚ))))

/-- `choix.iter().map(|poss| poss.valeur).max().unwrap()` from
`calcul_esperance`/`calcul_proba_fin`: on the nonempty lists it is applied to
(the empty choice-set was removed in `StatsJet::new`) the `unwrap` cannot
panic and the value equals this `foldl max 0`. -/
def maxValeur (choix : List Possibilite) : ℕ :=
  (choix.map Possibilite.valeur).foldl max 0

/-! ## Generic bound-indexed recursion scheme

`calcul_esperance` and `calcul_proba_fin` (`stats.rs`) recurse with a
strictly smaller `max_relances` bound at every recursive call.  We realise
such definitions as the `boundedSolve` of their body, a structurally
recursive fuel iteration; `boundedSolve_eq` recovers the recursion equation
whenever the body only consults the recursion at strictly smaller bounds
(`BodyCongr`). -/

/-- A solver body, abstracted over the recursive call.  Argument order:
score, dice count, stake, bound (as in `stats.rs`). -/
def SolverBody (α : Type) : Type :=
  (ℕ → ℕ → ℕ → ℕ → α) → ℕ → ℕ → ℕ → ℕ → α

/-- The body only consults the recursion at bounds strictly smaller than its
own bound argument. -/
def BodyCongr {α : Type} (body : SolverBody α) : Prop :=
  ∀ recur recur' score nbDes mise bound,
    (∀ s n m k, k < bound → recur s n m k = recur' s n m k) →
    body recur score nbDes mise bound = body recur' score nbDes mise bound

/-- Fuel iteration of a solver body. -/
def iterBody {α : Type} (body : SolverBody α) (dflt : ℕ → ℕ → ℕ → ℕ → α) :
    ℕ → ℕ → ℕ → ℕ → ℕ → α
  | 0 => body dflt
  | fuel + 1 => body (iterBody body dflt fuel)

/-- Tie the knot: at bound `b`, `b` units of fuel are always sufficient. -/
def boundedSolve {α : Type} (body : SolverBody α) (dflt : ℕ → ℕ → ℕ → ℕ → α)
    (score nbDes mise bound : ℕ) : α :=
  iterBody body dflt bound score nbDes mise bound

lemma iterBody_congr {α : Type} {body : SolverBody α} {dflt}
    (hc : BodyCongr body) :
    ∀ fuel fuel' bound, bound ≤ fuel → bound ≤ fuel' → ∀ score nbDes mise,
      iterBody body dflt fuel score nbDes mise bound
        = iterBody body dflt fuel' score nbDes mise bound := by
  intro fuel
  induction fuel with
  | zero =>
    intro fuel' bound h0 _ score nbDes mise
    interval_cases bound
    cases fuel' with
    | zero => rfl
    | succ g =>
      exact hc _ _ _ _ _ _ (fun s n m k hk => absurd hk (by omega))
  | succ f ih =>
    intro fuel' bound hf hf' score nbDes mise
    cases fuel' with
    | zero =>
      interval_cases bound
      exact hc _ _ _ _ _ _ (fun s n m k hk => absurd hk (by omega))
    | succ g =>
      exact hc _ _ _ _ _ _ (fun s n m k hk => ih g k (by omega) (by omega) s n m)

lemma boundedSolve_eq {α : Type} {body : SolverBody α} {dflt}
    (hc : BodyCongr body) (score nbDes mise bound : ℕ) :
    boundedSolve body dflt score nbDes mise bound
      = body (boundedSolve body dflt) score nbDes mise bound := by
  unfold boundedSolve
  cases bound with
  | zero =>
    exact hc _ _ _ _ _ _ (fun s n m k hk => absurd hk (by omega))
  | succ b =>
    show body (iterBody body dflt b) score nbDes mise (b + 1) = _
    exact hc _ _ _ _ _ _
      (fun s n m k hk => iterBody_congr hc b k k (by omega) (by omega) s n m)

/-! ## The expected-value solver (`Stats::calcul_esperance`, `stats.rs`) -/

/-- Body of `calcul_esperance` (`stats.rs` lines 173-236), recursive call
abstracted.  For each (non-bust) choice-set: the most expensive combination
decides whether stopping is legal (`arret_possible`); each combination may be
banked and, when the resulting total stays below `SCORE_MAX` and the bound
allows, followed by a reroll evaluated at every strictly smaller bound; the
best option's value is weighted by the choice-set's probability.  (The memo
cache is semantically transparent; it is modelled separately by
`calcEsperanceMemo` below.) -/
def espBody : SolverBody ℚ := fun recur score nbDes mise maxRelances =>
  (statsChoix nbDes).foldl (fun esperanceLancer sc =>
    let valeurMax := maxValeur sc.1
    let arretPossible := score + mise + valeurMax ≤ SCORE_MAX
    let esperanceMax := sc.1.foldl (fun em poss =>
      let nouvelleMise := mise + poss.valeur
      let em2 := if arretPossible then max em (nouvelleMise : ℚ) else em
      if SCORE_MAX ≤ score + nouvelleMise then em2
      else (List.range maxRelances).foldl
        (fun acc numRelancesPred =>
          max acc (recur score poss.nbDesRelance nouvelleMise numRelancesPred)) em2) 0
    esperanceLancer + esperanceMax * sc.2) 0

lemma espBody_congr : BodyCongr espBody := by
  intro recur recur' score nbDes mise bound H
  unfold espBody
  refine List.foldl_ext _ _ _ (fun acc sc _ => ?_)
  have h1 : ∀ (em : ℚ) (poss : Possibilite), poss ∈ sc.1 →
      (List.range bound).foldl
          (fun acc2 k => max acc2 (recur score poss.nbDesRelance (mise + poss.valeur) k)) em
        = (List.range bound).foldl
          (fun acc2 k => max acc2 (recur' score poss.nbDesRelance (mise + poss.valeur) k)) em := by
    intro em poss _
    refine List.foldl_ext _ _ _ (fun acc2 k hk => ?_)
    rw [H _ _ _ _ (List.mem_range.mp hk)]
  have h2 : sc.1.foldl (fun em poss =>
        let nouvelleMise := mise + poss.valeur
        let em2 := if score + mise + maxValeur sc.1 ≤ SCORE_MAX
          then max em (nouvelleMise : ℚ) else em
        if SCORE_MAX ≤ score + nouvelleMise then em2
        else (List.range bound).foldl
          (fun acc2 k =>
            max acc2 (recur score poss.nbDesRelance nouvelleMise k)) em2) 0
      = sc.1.foldl (fun em poss =>
        let nouvelleMise := mise + poss.valeur
        let em2 := if score + mise + maxValeur sc.1 ≤ SCORE_MAX
          then max em (nouvelleMise : ℚ) else em
        if SCORE_MAX ≤ score + nouvelleMise then em2
        else (List.range bound).foldl
          (fun acc2 k =>
            max acc2 (recur' score poss.nbDesRelance nouvelleMise k)) em2) 0 := by
    refine List.foldl_ext _ _ _ (fun em poss hmem => ?_)
    simp only
    by_cases hstop : SCORE_MAX ≤ score + (mise + poss.valeur)
    · simp only [if_pos hstop]
    · simp only [if_neg hstop, h1 _ poss hmem]
  simp only [h2]

/-- `calcul_esperance` from `stats.rs`, as a pure function of
(score, dice count, stake, reroll bound). -/
def calcEsperance : ℕ → ℕ → ℕ → ℕ → ℚ :=
  boundedSolve espBody (fun _ _ _ _ => 0)

/-- The recursion equation of `calcul_esperance`. -/
theorem calcEsperance_eq (score nbDes mise bound : ℕ) :
    calcEsperance score nbDes mise bound
      = espBody calcEsperance score nbDes mise bound :=
  boundedSolve_eq espBody_congr score nbDes mise bound

/-! ## The win-probability solver (`Stats::calcul_proba_fin`, `stats.rs`) -/

/-- The immediate (stop) payoff of `calcul_proba_fin` (`stats.rs` lines
263-265): `1` exactly when banking the most expensive combination lands the
total exactly on 10000 (the literal used by the source's win test). -/
def probaFinArret (score mise : ℕ) (choix : List Possibilite) : ℚ :=
  if score + mise + maxValeur choix = 10000 then 1 else 0

/-- Body of `calcul_proba_fin` (`stats.rs` lines 239-293), recursive call
abstracted: same weighted-sum/max recursion as `espBody`, with the 0/1
payoff `probaFinArret` in place of the stop value and no `arret_possible`
alternative. -/
def pfinBody : SolverBody ℚ := fun recur score nbDes mise maxRelances =>
  (statsChoix nbDes).foldl (fun probaFinPartie sc =>
    let probaFinMax := sc.1.foldl (fun pm poss =>
      let nouvelleMise := mise + poss.valeur
      if SCORE_MAX ≤ score + nouvelleMise then pm
      else (List.range maxRelances).foldl
        (fun acc numRelancesPred =>
          max acc (recur score poss.nbDesRelance nouvelleMise numRelancesPred)) pm)
      (probaFinArret score mise sc.1)
    probaFinPartie + probaFinMax * sc.2) 0

lemma pfinBody_congr : BodyCongr pfinBody := by
  intro recur recur' score nbDes mise bound H
  unfold pfinBody
  refine List.foldl_ext _ _ _ (fun acc sc _ => ?_)
  have h2 : sc.1.foldl (fun pm poss =>
        let nouvelleMise := mise + poss.valeur
        if SCORE_MAX ≤ score + nouvelleMise then pm
        else (List.range bound).foldl
          (fun acc2 k =>
            max acc2 (recur score poss.nbDesRelance nouvelleMise k)) pm)
        (probaFinArret score mise sc.1)
      = sc.1.foldl (fun pm poss =>
        let nouvelleMise := mise + poss.valeur
        if SCORE_MAX ≤ score + nouvelleMise then pm
        else (List.range bound).foldl
          (fun acc2 k =>
            max acc2 (recur' score poss.nbDesRelance nouvelleMise k)) pm)
        (probaFinArret score mise sc.1) := by
    refine List.foldl_ext _ _ _ (fun pm poss hmem => ?_)
    simp only
    by_cases hstop : SCORE_MAX ≤ score + (mise + poss.valeur)
    · simp only [if_pos hstop]
    · simp only [if_neg hstop]
      refine List.foldl_ext _ _ _ (fun acc2 k hk => ?_)
      rw [H _ _ _ _ (List.mem_range.mp hk)]
  simp only [h2]

/-- `calcul_proba_fin` from `stats.rs`, as a pure function of
(score, dice count, stake, reroll bound). -/
def calcProbaFin : ℕ → ℕ → ℕ → ℕ → ℚ :=
  boundedSolve pfinBody (fun _ _ _ _ => 0)

/-- The recursion equation of `calcul_proba_fin`. -/
theorem calcProbaFin_eq (score nbDes mise bound : ℕ) :
    calcProbaFin score nbDes mise bound
      = pfinBody calcProbaFin score nbDes mise bound :=
  boundedSolve_eq pfinBody_congr score nbDes mise bound

/-! ## Spec-side value tables (for claim C5)

These definitions follow the WORDS of the spec (§3 "Values: ..." and §8
`diceCost` lines), to be compared with the source-derived
`Combinaison.valeur` / `Combinaison.nbDes`. -/

/-- Spec §3: "Triple-of-ones is worth 1000 (not 3×100); triple values for
faces 2..6 are 200,300,400,500,600 respectively." -/
def specTripleValue (i : Fin NB_FACES) : ℕ :=
  if (i : ℕ) = 0 then 1000
  else if (i : ℕ) = 1 then 200
  else if (i : ℕ) = 2 then 300
  else if (i : ℕ) = 3 then 400
  else if (i : ℕ) = 4 then 500
  else 600

/-- Spec §3: "Straight/ThreePairs = 500; DoubleTriple = sum of each face's
triple value; SingleTriple = triple value of its face + 100×extra-ones +
50×extra-fives; LooseSingles = 100×ones + 50×fives." -/
def specValeur : Combinaison → ℕ
  | .Suite => 500
  | .TriplePaire => 500
  | .BrelanDouble idxFace1 idxFace2 => specTripleValue idxFace1 + specTripleValue idxFace2
  | .BrelanSimple idxFace nbUn nbCinq => specTripleValue idxFace + 100 * nbUn + 50 * nbCinq
  | .FacesSimples nbUn nbCinq => 100 * nbUn + 50 * nbCinq

/-- Spec: `diceCost` is 6 for Straight, ThreePairs and DoubleTriple,
3 + ones + fives for SingleTriple, and ones + fives for LooseSingles. -/
def specDiceCost : Combinaison → ℕ
  | .Suite => 6
  | .TriplePaire => 6
  | .BrelanDouble _ _ => 6
  | .BrelanSimple _ nbUn nbCinq => 3 + nbUn + nbCinq
  | .FacesSimples nbUn nbCinq => nbUn + nbCinq

/-- C5 — The derived value and dice-cost functions equal the spec's tables
for every combination: the source's `Combinaison::valeur` and
`Combinaison::nb_des` agree with the spec-side `specValeur` and
`specDiceCost` on every combination. -/
theorem c5_valeur_et_cout_conformes (comb : Combinaison) :
    comb.valeur = specValeur comb ∧ comb.nbDes = specDiceCost comb := by
  have htable : ∀ i : Fin NB_FACES, VALEURS_BRELANS i = specTripleValue i := by decide
  cases comb with
  | Suite => exact ⟨rfl, rfl⟩
  | TriplePaire => exact ⟨rfl, rfl⟩
  | BrelanDouble i j =>
    refine ⟨?_, rfl⟩
    simp [Combinaison.valeur, specValeur, htable]
  | BrelanSimple i u c =>
    refine ⟨?_, rfl⟩
    simp [Combinaison.valeur, specValeur, htable]
    ring
  | FacesSimples u c =>
    refine ⟨?_, rfl⟩
    simp [Combinaison.valeur, specValeur]
    ring

/-! ## C1 — monotonicity of the bound-limited expected value -/

lemma foldl_le_foldl {α : Type} (f g : ℚ → α → ℚ) :
    ∀ l : List α, (∀ x ∈ l, ∀ u v : ℚ, u ≤ v → f u x ≤ g v x) →
      ∀ a b : ℚ, a ≤ b → l.foldl f a ≤ l.foldl g b := by
  intro l
  induction l with
  | nil => intro _ a b hab; simpa using hab
  | cons x xs ih =>
    intro h a b hab
    simp only [List.foldl_cons]
    exact ih (fun y hy => h y (List.mem_cons_of_mem _ hy)) _ _
      (h x (List.mem_cons_self _ _) a b hab)

lemma statsChoix_proba_nonneg (nbDes : ℕ) :
    ∀ sc ∈ statsChoix nbDes, 0 ≤ sc.2 := by
  intro sc hsc
  obtain ⟨choix, -, rfl⟩ := List.mem_map.mp hsc
  exact mul_nonneg (Nat.cast_nonneg _) (by positivity)

/-- C1 — For every solver state (score, stake, dice count with
1 ≤ diceCount ≤ 6) and every bound ≥ 0, the bound-limited expected value is
monotone in the bound: `calcEsperance state (bound+1) ≥ calcEsperance state
bound`. -/
theorem c1_esperance_monotone (score nbDes mise bound : ℕ)
    (h1 : 1 ≤ nbDes) (h6 : nbDes ≤ NB_DES_TOT) :
    calcEsperance score nbDes mise bound
      ≤ calcEsperance score nbDes mise (bound + 1) := by
  rw [calcEsperance_eq score nbDes mise bound,
    calcEsperance_eq score nbDes mise (bound + 1)]
  unfold espBody
  refine foldl_le_foldl _ _ _ (fun sc hsc u v huv => ?_) 0 0 le_rfl
  simp only
  have hp : 0 ≤ sc.2 := statsChoix_proba_nonneg nbDes sc hsc
  refine add_le_add huv (mul_le_mul_of_nonneg_right ?_ hp)
  refine foldl_le_foldl _ _ _ (fun poss _ em em' hem => ?_) 0 0 le_rfl
  have hstep : (if score + mise + maxValeur sc.1 ≤ SCORE_MAX
        then max em (((mise + poss.valeur) : ℕ) : ℚ) else em)
      ≤ (if score + mise + maxValeur sc.1 ≤ SCORE_MAX
        then max em' (((mise + poss.valeur) : ℕ) : ℚ) else em') := by
    by_cases ha : score + mise + maxValeur sc.1 ≤ SCORE_MAX
    · simpa [ha] using max_le_max hem le_rfl
    · simpa [ha] using hem
  by_cases hstop : SCORE_MAX ≤ score + (mise + poss.valeur)
  · simpa [hstop] using hstep
  · simp only [if_neg hstop]
    rw [List.range_succ, List.foldl_append]
    simp only [List.foldl_cons, List.foldl_nil]
    refine le_trans ?_ (le_max_left _ _)
    refine foldl_le_foldl _ _ _ (fun k _ a b hab => ?_) _ _ hstep
    exact max_le_max hab le_rfl

/-- Witness for C1 at a concrete state. -/
theorem c1_esperance_monotone_witness :
    1 ≤ 1 ∧ 1 ≤ NB_DES_TOT ∧
      calcEsperance 0 1 0 0 ≤ calcEsperance 0 1 0 1 :=
  ⟨le_rfl, by decide, c1_esperance_monotone 0 1 0 0 le_rfl (by decide)⟩

/-! ## C6 — the roll distribution is normalised -/

lemma beq_eq_beq_inst {α : Type} {i1 i2 : BEq α} [@LawfulBEq α i1] [@LawfulBEq α i2] (a b : α) :
    (@BEq.beq _ i1 a b) = (@BEq.beq _ i2 a b) := by
  by_cases h : a = b
  · subst h
    have h1 : (@BEq.beq _ i1 a a) = true := @beq_self_eq_true _ i1 _ a
    have h2 : (@BEq.beq _ i2 a a) = true := @beq_self_eq_true _ i2 _ a
    rw [h1, h2]
  · have h1 : (@BEq.beq _ i1 a b) = false := by
      cases hb : @BEq.beq _ i1 a b
      · rfl
      · exact absurd (@eq_of_beq _ i1 _ _ _ hb) h
    have h2 : (@BEq.beq _ i2 a b) = false := by
      cases hb : @BEq.beq _ i2 a b
      · rfl
      · exact absurd (@eq_of_beq _ i2 _ _ _ hb) h
    rw [h1, h2]

lemma count_congr_beq {α : Type} {i1 i2 : BEq α} [@LawfulBEq α i1] [@LawfulBEq α i2] (a : α) :
    ∀ l : List α, @List.count _ i1 a l = @List.count _ i2 a l := by
  intro l
  induction l with
  | nil => rfl
  | cons b t ih =>
    rw [@List.count_cons _ i1, @List.count_cons _ i2, ih, @beq_eq_beq_inst α i1 i2 _ _ b a]

lemma sum_dedup_count {α : Type} [DecidableEq α] (l : List α) :
    (l.dedup.map (fun a => l.count a)).sum = l.length := by
  have h := Multiset.toFinset_sum_count_eq (l : Multiset α)
  rw [Multiset.coe_card] at h
  rw [← h]
  show _ = (((l : Multiset α).toFinset.val.map fun a => (l : Multiset α).count a)).sum
  simp only [List.toFinset_coe, List.toFinset_val, Multiset.map_coe, Multiset.sum_coe,
    Multiset.coe_count]

/-- `sum_dedup_count` transported to the `BEq` instance the definitions of
this file use for counting choice-sets. -/
lemma sum_dedup_count_liste (l : List (List Combinaison)) :
    (l.dedup.map (fun a => l.count a)).sum = l.length := by
  have hmap : (l.dedup.map (fun a => l.count a))
      = (l.dedup.map (fun a =>
          @List.count _ (instBEqOfDecidableEq : BEq (List Combinaison)) a l)) :=
    List.map_congr_left (fun a _ =>
      @count_congr_beq (List Combinaison) _ instBEqOfDecidableEq
        (by infer_instance) (by infer_instance) a l)
  rw [hmap]
  exact sum_dedup_count l

lemma choixList_length (nbDes : ℕ) :
    (choixList nbDes).length = NB_FACES ^ nbDes := by
  simp [choixList]

/-- C6 — For every dice count `n` in 1..6, the roll-distribution builder
assigns each choice-set the probability (number of raw rolls producing it) /
6^n, and the probabilities over all choice-sets (bust included) sum to 1. -/
theorem c6_probas_normalisees (nbDes : ℕ) (h1 : 1 ≤ nbDes) (h6 : nbDes ≤ NB_DES_TOT) :
    (∀ pr ∈ enumererChoix nbDes,
        pr.2 = ((choixList nbDes).count pr.1 : ℚ) / (NB_FACES ^ nbDes : ℚ)) ∧
      ((enumererChoix nbDes).map Prod.snd).sum = 1 := by
  constructor
  · intro pr hpr
    obtain ⟨c, hc, rfl⟩ := List.mem_map.mp hpr
    exact mul_one_div _ _
  · unfold enumererChoix
    rw [List.map_map]
    have hcomp : (Prod.snd ∘ fun choix =>
          (choix, ((choixList nbDes).count choix : ℚ) * (1 / (NB_FACES ^ nbDes : ℚ))))
        = fun choix => ((choixList nbDes).count choix : ℚ) * (1 / (NB_FACES ^ nbDes : ℚ)) :=
      rfl
    rw [hcomp, List.sum_map_mul_right]
    rw [show ((choixList nbDes).dedup.map fun choix =>
          (((choixList nbDes).count choix : ℕ) : ℚ))
        = (((choixList nbDes).dedup.map fun choix =>
            (choixList nbDes).count choix).map (fun n : ℕ => (n : ℚ))) by
      rw [List.map_map]
      rfl]
    rw [← Nat.cast_list_sum, sum_dedup_count_liste, choixList_length]
    push_cast
    field_simp

/-- Witness for C6 at a concrete dice count. -/
theorem c6_probas_normalisees_witness :
    1 ≤ 1 ∧ 1 ≤ NB_DES_TOT ∧
      ((enumererChoix 1).map Prod.snd).sum = 1 :=
  ⟨le_rfl, by decide, (c6_probas_normalisees 1 le_rfl (by decide)).2⟩

/-! ## C3 — the three-ones roll -/

/-- C3 counterexample — the claim's scenario is false on the code: for the
roll of 3 dice all showing face one (raw roll number 0 of 3 dice), the
choice-set is exactly `[BrelanSimple 0 0 0]`, but its annotated reroll dice
count is NOT 3. -/
theorem c3_contre_exemple :
    ¬ (enumererCombinaisons (histoOfRoll 3 0) = [Combinaison.BrelanSimple 0 0 0] ∧
       (annoter 3 (enumererCombinaisons (histoOfRoll 3 0))).map Possibilite.nbDesRelance
         = [3]) := by
  decide

/-- C3 amended — for a roll of 3 dice all showing face one, the enumerated
choice-set contains exactly one combination, `BrelanSimple 0 0 0` (value
1000, dice cost 3), and since that combination consumes all 3 dice in hand
the annotated reroll dice count is the full pool of 6 dice ("hot dice"),
not 6 − 3 = 3. -/
theorem c3_brelan_de_uns_amende :
    enumererCombinaisons (histoOfRoll 3 0) = [Combinaison.BrelanSimple 0 0 0] ∧
    (Combinaison.BrelanSimple 0 0 0).valeur = 1000 ∧
    (Combinaison.BrelanSimple 0 0 0).nbDes = 3 ∧
    annoter 3 (enumererCombinaisons (histoOfRoll 3 0))
      = [{ comb := Combinaison.BrelanSimple 0 0 0, valeur := 1000, nbDesRelance := 6 }] := by
  decide

/-! ## Histograms of raw rolls -/

lemma histoSum_update_add (histo : HistogrammeFaces) (i : Fin NB_FACES) :
    histoSum (Function.update histo i (histo i + 1)) = histoSum histo + 1 := by
  have h1 : histoSum (Function.update histo i (histo i + 1))
      = (histo i + 1) + ∑ j in Finset.univ.erase i, histo j := by
    rw [histoSum, Finset.sum_update_of_mem (Finset.mem_univ i),
      Finset.sdiff_singleton_eq_erase]
  have h2 : histoSum histo = histo i + ∑ j in Finset.univ.erase i, histo j :=
    (Finset.add_sum_erase _ _ (Finset.mem_univ i)).symm
  omega

lemma histoSum_histoOfRollAux :
    ∀ (nbDes reste : ℕ) (histo : HistogrammeFaces),
      histoSum (histoOfRollAux nbDes reste histo) = nbDes + histoSum histo := by
  intro nbDes
  induction nbDes with
  | zero => intro reste histo; simp [histoOfRollAux]
  | succ n ih =>
    intro reste histo
    show histoSum (histoOfRollAux n (reste / NB_FACES) _) = _
    rw [ih, histoSum_update_add]
    omega

/-- A raw roll of `nbDes` dice yields a histogram of `nbDes` dice. -/
lemma histoSum_histoOfRoll (nbDes numComb : ℕ) :
    histoSum (histoOfRoll nbDes numComb) = nbDes := by
  rw [histoOfRoll, histoSum_histoOfRollAux]
  simp [histoSum]

lemma numPaires_le (histo : HistogrammeFaces) :
    2 * numPaires histo ≤ histoSum histo := by
  have hsum : histoSum histo = ((List.finRange NB_FACES).map histo).sum := rfl
  rw [numPaires, hsum]
  induction (List.finRange NB_FACES) with
  | nil => simp
  | cons i t ih =>
    simp only [List.map_cons, List.sum_cons, Nat.mul_add]
    have : 2 * (histo i / 2) ≤ histo i := Nat.mul_div_le _ _
    omega

/-! ## Characterising the enumerator's output -/

lemma combiBrelan_eq_some (idxFace : Fin NB_FACES) (combi c : Combinaison) :
    combiBrelan idxFace combi = some c ↔
      ((∃ idxFace2, combi = .BrelanSimple idxFace2 0 0 ∧ idxFace ≤ idxFace2 ∧
          c = .BrelanDouble idxFace idxFace2) ∨
       (∃ nbUn nbCinq, combi = .FacesSimples nbUn nbCinq ∧
          c = .BrelanSimple idxFace nbUn nbCinq)) := by
  cases combi with
  | Suite => simp [combiBrelan]
  | TriplePaire => simp [combiBrelan]
  | BrelanDouble a b => simp [combiBrelan]
  | BrelanSimple j u v =>
    cases u with
    | zero =>
      cases v with
      | zero =>
        by_cases hj : j < idxFace
        · simp [combiBrelan, hj, not_le.mpr hj]
        · simp [combiBrelan, hj, not_lt.mp hj, eq_comm]
      | succ v2 => simp [combiBrelan]
    | succ u2 =>
      cases v with
      | zero => simp [combiBrelan]
      | succ v2 => simp [combiBrelan]
  | FacesSimples u v =>
    simp [combiBrelan, eq_comm]
    constructor
    · intro h
      exact ⟨u, v, ⟨rfl, rfl⟩, h⟩
    · rintro ⟨nu, nc, ⟨rfl, rfl⟩, h⟩
      exact h

/-- Membership in the enumerator's output, unfolded one recursion level. -/
lemma mem_enumererCombinaisons (histo : HistogrammeFaces) (c : Combinaison) :
    c ∈ enumererCombinaisons histo ↔
      ((c = .Suite ∧ ∀ i, histo i = 1) ∨
       (c = .TriplePaire ∧ numPaires histo = 3) ∨
       (∃ i : Fin NB_FACES, 3 ≤ histo i ∧
         (c = .BrelanSimple i 0 0 ∨
          ∃ combi ∈ enumererCombinaisons (Function.update histo i (histo i - 3)),
            combiBrelan i combi = some c)) ∨
       (∃ nbUn, nbUn + 1 ≤ histo 0 % 3 ∧ c = .FacesSimples (nbUn + 1) 0) ∨
       (∃ nbCinq, nbCinq + 1 ≤ histo 4 % 3 ∧
         c = .FacesSimples (histo 0 % 3) (nbCinq + 1))) := by
  rw [enumererCombinaisons_eq]
  unfold enumBody blocBrelan
  simp only [List.mem_append, List.mem_flatten, List.mem_map, List.mem_filterMap,
    List.mem_range, List.mem_finRange]
  constructor
  · rintro ((((h1 | h2) | h3) | h4) | h5)
    · left
      by_cases hs : ∀ i, histo i = 1
      · simp only [if_pos hs, List.mem_singleton] at h1
        exact ⟨h1, hs⟩
      · simp [if_neg hs] at h1
    · right; left
      by_cases hp : numPaires histo = 3
      · simp only [if_pos hp, List.mem_singleton] at h2
        exact ⟨h2, hp⟩
      · simp [if_neg hp] at h2
    · right; right; left
      obtain ⟨bl, ⟨i, -, hbl⟩, hc⟩ := h3
      subst hbl
      by_cases hi : 3 ≤ histo i
      · rw [if_pos hi] at hc
        refine ⟨i, hi, ?_⟩
        rcases List.mem_cons.mp hc with hhead | htail
        · exact Or.inl hhead
        · right
          obtain ⟨combi, hcombi, hsome⟩ := List.mem_filterMap.mp htail
          exact ⟨combi, hcombi, hsome⟩
      · rw [if_neg hi] at hc
        simp at hc
    · right; right; right; left
      obtain ⟨u, hu, hc⟩ := h4
      exact ⟨u, by omega, hc.symm⟩
    · right; right; right; right
      obtain ⟨v, hv, hc⟩ := h5
      exact ⟨v, by omega, hc.symm⟩
  · rintro (⟨hc, hs⟩ | ⟨hc, hp⟩ | ⟨i, hi, hx⟩ | ⟨u, hu, hc⟩ | ⟨v, hv, hc⟩)
    · left; left; left; left
      simp [if_pos hs, hc]
    · left; left; left; right
      simp [if_pos hp, hc]
    · left; left; right
      refine ⟨_, ⟨i, trivial, rfl⟩, ?_⟩
      rw [if_pos hi]
      rcases hx with hhead | ⟨combi, hcombi, hsome⟩
      · exact List.mem_cons.mpr (Or.inl hhead)
      · exact List.mem_cons.mpr (Or.inr (List.mem_filterMap.mpr ⟨combi, hcombi, hsome⟩))
    · left; right
      exact ⟨u, by omega, hc.symm⟩
    · right
      exact ⟨v, by omega, hc.symm⟩

/-- Every combination the enumerator offers consumes at most the dice of the
histogram it was enumerated from. -/
lemma nbDes_le_histoSum :
    ∀ (n : ℕ) (histo : HistogrammeFaces), histoSum histo = n →
      ∀ c ∈ enumererCombinaisons histo, c.nbDes ≤ histoSum histo := by
  intro n
  induction n using Nat.strong_induction_on with
  | _ n ih =>
    intro histo hn c hc
    rcases (mem_enumererCombinaisons histo c).mp hc with
      ⟨hc, hs⟩ | ⟨hc, hp⟩ | ⟨i, hi, hx⟩ | ⟨u, hu, hc⟩ | ⟨v, hv, hc⟩
    · subst hc
      have : histoSum histo = 6 := by
        simp [histoSum, hs]
      rw [this]
      rfl
    · subst hc
      have h6 : 2 * numPaires histo ≤ histoSum histo := numPaires_le histo
      show 6 ≤ histoSum histo
      omega
    · have hsub : histoSum (Function.update histo i (histo i - 3))
          = histoSum histo - 3 := histoSum_update_sub histo i hi
      have h3 : 3 ≤ histoSum histo := le_trans hi (histo_le_histoSum histo i)
      rcases hx with hhead | ⟨combi, hcombi, hsome⟩
      · subst hhead
        show 3 + 0 + 0 ≤ histoSum histo
        omega
      · have hcombi_le : combi.nbDes ≤ histoSum (Function.update histo i (histo i - 3)) :=
          ih (histoSum histo - 3) (by omega) _ hsub combi hcombi
        rcases (combiBrelan_eq_some i combi c).mp hsome with
          ⟨j, hcb, hij, hcc⟩ | ⟨nu, nc, hcb, hcc⟩
        · subst hcb; subst hcc
          have : (Combinaison.BrelanSimple j 0 0).nbDes = 3 := rfl
          show 6 ≤ histoSum histo
          rw [hsub] at hcombi_le
          simp [Combinaison.nbDes] at hcombi_le
          omega
        · subst hcb; subst hcc
          show 3 + nu + nc ≤ histoSum histo
          rw [hsub] at hcombi_le
          simp [Combinaison.nbDes] at hcombi_le
          omega
    · subst hc
      show (u + 1) + 0 ≤ histoSum histo
      have := histo_le_histoSum histo 0
      have := Nat.mod_le (histo 0) 3
      omega
    · subst hc
      show (histo 0 % 3) + (v + 1) ≤ histoSum histo
      have h04 : histo 0 + histo 4 ≤ histoSum histo := by
        have : ({0, 4} : Finset (Fin NB_FACES)) ⊆ Finset.univ := Finset.subset_univ _
        calc histo 0 + histo 4 = ∑ i in ({0, 4} : Finset (Fin NB_FACES)), histo i := by
              rw [Finset.sum_pair (by decide)]
          _ ≤ histoSum histo := Finset.sum_le_sum_of_subset this
      have := Nat.mod_le (histo 0) 3
      have := Nat.mod_le (histo 4) 3
      omega

/-! ## C2 — reroll dice count after banking ("hot dice") -/

/-- C2 — For every dice count `n` in 1..6 and every combination offered for
an `n`-dice roll, if banking that combination consumes exactly the `n` dice
in hand then the annotated reroll dice count is 6 (never 0); otherwise it is
`n` minus the combination's dice cost. -/
theorem c2_relance_apres_encaissement (nbDes : ℕ)
    (h1 : 1 ≤ nbDes) (h6 : nbDes ≤ NB_DES_TOT)
    (choixSet : List Possibilite) (hsc : choixSet ∈ (statsChoix nbDes).map Prod.fst)
    (poss : Possibilite) (hposs : poss ∈ choixSet) :
    (poss.comb.nbDes = nbDes → poss.nbDesRelance = NB_DES_TOT) ∧
    (poss.comb.nbDes ≠ nbDes → poss.nbDesRelance = nbDes - poss.comb.nbDes) := by
  obtain ⟨sc, hsc2, rfl⟩ := List.mem_map.mp hsc
  obtain ⟨choix, hfil, rfl⟩ := List.mem_map.mp hsc2
  have hmem : choix ∈ (choixList nbDes).dedup := (List.mem_filter.mp hfil).1
  have hcl : choix ∈ choixList nbDes := List.mem_dedup.mp hmem
  obtain ⟨r, hr, hchoix⟩ := List.mem_map.mp hcl
  obtain ⟨comb, hcomb, rfl⟩ := List.mem_map.mp hposs
  have hle : comb.nbDes ≤ nbDes := by
    have hmem2 : comb ∈ enumererCombinaisons (histoOfRoll nbDes r) := by
      rw [hchoix]; exact hcomb
    have := nbDes_le_histoSum (histoSum (histoOfRoll nbDes r)) _ rfl comb hmem2
    rwa [histoSum_histoOfRoll] at this
  constructor
  · intro heq
    show (if nbDes - comb.nbDes = 0 then NB_DES_TOT else nbDes - comb.nbDes) = NB_DES_TOT
    rw [heq]
    simp
  · intro hne
    have hcne : comb.nbDes ≠ nbDes := fun h => hne h
    show (if nbDes - comb.nbDes = 0 then NB_DES_TOT else nbDes - comb.nbDes)
      = nbDes - comb.nbDes
    rw [if_neg (by omega)]

/-- Witness for C2 at a concrete dice count, choice-set and combination. -/
theorem c2_relance_apres_encaissement_witness :
    (annoter 1 [Combinaison.FacesSimples 1 0] ∈ (statsChoix 1).map Prod.fst) ∧
    ((⟨Combinaison.FacesSimples 1 0, 100, 6⟩ : Possibilite)
      ∈ annoter 1 [Combinaison.FacesSimples 1 0]) ∧
    (((⟨Combinaison.FacesSimples 1 0, 100, 6⟩ : Possibilite).comb.nbDes = 1 →
        (⟨Combinaison.FacesSimples 1 0, 100, 6⟩ : Possibilite).nbDesRelance = NB_DES_TOT) ∧
      ((⟨Combinaison.FacesSimples 1 0, 100, 6⟩ : Possibilite).comb.nbDes ≠ 1 →
        (⟨Combinaison.FacesSimples 1 0, 100, 6⟩ : Possibilite).nbDesRelance
          = 1 - (⟨Combinaison.FacesSimples 1 0, 100, 6⟩ : Possibilite).comb.nbDes)) :=
  ⟨by decide, by decide,
    c2_relance_apres_encaissement 1 le_rfl (by decide)
      (annoter 1 [Combinaison.FacesSimples 1 0]) (by decide)
      ⟨Combinaison.FacesSimples 1 0, 100, 6⟩ (by decide)⟩

/-! ## C4 — the win-probability stop payoff -/

lemma le_foldl_max_init : ∀ (l : List ℕ) (a : ℕ), a ≤ l.foldl max a := by
  intro l
  induction l with
  | nil => intro a; exact le_rfl
  | cons b t ih =>
    intro a
    exact le_trans (le_max_left a b) (ih (max a b))

lemma le_foldl_max_mem : ∀ (l : List ℕ) (a x : ℕ), x ∈ l → x ≤ l.foldl max a := by
  intro l
  induction l with
  | nil => intro a x hx; exact absurd hx (List.not_mem_nil x)
  | cons b t ih =>
    intro a x hx
    rcases List.mem_cons.mp hx with rfl | hx2
    · exact le_trans (le_max_right a x) (le_foldl_max_init t (max a x))
    · exact ih (max a b) x hx2

lemma foldl_max_mem : ∀ (l : List ℕ) (a : ℕ), l.foldl max a = a ∨ l.foldl max a ∈ l := by
  intro l
  induction l with
  | nil => intro a; exact Or.inl rfl
  | cons b t ih =>
    intro a
    rcases ih (max a b) with heq | hmem
    · rcases max_choice a b with hab | hab
      · left
        rw [List.foldl_cons, heq, hab]
      · right
        rw [List.foldl_cons, heq, hab]
        exact List.mem_cons_self b t
    · right
      exact List.mem_cons_of_mem b hmem

lemma foldl_const_acc {α β : Type} : ∀ (l : List α) (a : β), l.foldl (fun acc _ => acc) a = a := by
  intro l
  induction l with
  | nil => intro a; rfl
  | cons b t ih => intro a; exact ih a

/-- C4 counterexample — the claim's payoff characterisation is false on the
code: the source tests only the MOST EXPENSIVE combination against 10000, so
a choice-set in which a cheaper combination would land exactly on the target
while the most expensive one overshoots has payoff 0, although "banking some
combination of that choice-set lands exactly on the target" holds. -/
theorem c4_contre_exemple :
    ¬ (∀ nbDes, 1 ≤ nbDes → nbDes ≤ NB_DES_TOT →
        ∀ choix ∈ choixList nbDes, choix ≠ [] →
        ∀ score mise : ℕ,
          (probaFinArret score mise (annoter nbDes choix) = 1 ↔
            ∃ poss ∈ annoter nbDes choix, score + mise + poss.valeur = 10000)) := by
  intro h
  have h2 := h 2 (by decide) (by decide)
    [Combinaison.FacesSimples 1 0, Combinaison.FacesSimples 1 1]
    (by decide) (by decide) 0 9900
  have hrhs : ∃ poss ∈ annoter 2 [Combinaison.FacesSimples 1 0, Combinaison.FacesSimples 1 1],
      0 + 9900 + poss.valeur = 10000 :=
    ⟨⟨Combinaison.FacesSimples 1 0, 100, 1⟩, by decide, by decide⟩
  have hlhs := h2.mpr hrhs
  have hzero : probaFinArret 0 9900
      (annoter 2 [Combinaison.FacesSimples 1 0, Combinaison.FacesSimples 1 1]) = 0 := by
    decide
  rw [hzero] at hlhs
  exact absurd hlhs (by norm_num)

/-- C4 amended — the win-probability computation shares the expected-value
solver's recursive weighted-sum/max structure with the 0/1 payoff
`probaFinArret` as the immediate value of a choice-set; that payoff is 1
exactly when banking the MOST EXPENSIVE combination of the choice-set lands
the total `score + stake + value` exactly on the 10000-point target (in that
case such a combination of the choice-set exists), and 0 otherwise. -/
theorem c4_proba_fin_arret_amende (nbDes : ℕ) (h1 : 1 ≤ nbDes) (h6 : nbDes ≤ NB_DES_TOT)
    (choix : List Combinaison) (hc : choix ∈ choixList nbDes) (hne : choix ≠ [])
    (score mise : ℕ) :
    (probaFinArret score mise (annoter nbDes choix) = 1 ↔
      score + mise + maxValeur (annoter nbDes choix) = 10000) ∧
    (probaFinArret score mise (annoter nbDes choix) = 1 →
      ∃ poss ∈ annoter nbDes choix, score + mise + poss.valeur = 10000 ∧
        ∀ autre ∈ annoter nbDes choix, autre.valeur ≤ poss.valeur) ∧
    (probaFinArret score mise (annoter nbDes choix) ≠ 1 →
      probaFinArret score mise (annoter nbDes choix) = 0) ∧
    calcProbaFin score nbDes mise 0
      = (statsChoix nbDes).foldl
          (fun acc sc => acc + probaFinArret score mise sc.1 * sc.2) 0 := by
  have hiff : probaFinArret score mise (annoter nbDes choix) = 1 ↔
      score + mise + maxValeur (annoter nbDes choix) = 10000 := by
    unfold probaFinArret
    by_cases hcond : score + mise + maxValeur (annoter nbDes choix) = 10000
    · simp [hcond]
    · simp [hcond]
  refine ⟨hiff, ?_, ?_, ?_⟩
  · intro hone
    have hcond := hiff.mp hone
    rcases foldl_max_mem ((annoter nbDes choix).map Possibilite.valeur) 0 with hzero | hmem
    · have hne2 : annoter nbDes choix ≠ [] := by
        intro habs
        exact hne (List.map_eq_nil_iff.mp habs)
      obtain ⟨poss0, hposs0⟩ := List.exists_mem_of_ne_nil _ hne2
      refine ⟨poss0, hposs0, ?_, ?_⟩
      · have hb : poss0.valeur ≤ maxValeur (annoter nbDes choix) :=
          le_foldl_max_mem _ 0 _ (List.mem_map_of_mem _ hposs0)
        have hz : maxValeur (annoter nbDes choix) = 0 := hzero
        omega
      · intro autre hautre
        have hb : autre.valeur ≤ maxValeur (annoter nbDes choix) :=
          le_foldl_max_mem _ 0 _ (List.mem_map_of_mem _ hautre)
        have hb0 : poss0.valeur ≤ maxValeur (annoter nbDes choix) :=
          le_foldl_max_mem _ 0 _ (List.mem_map_of_mem _ hposs0)
        have hz : maxValeur (annoter nbDes choix) = 0 := hzero
        omega
    · obtain ⟨poss, hposs, hval⟩ := List.mem_map.mp hmem
      have hval2 : poss.valeur = maxValeur (annoter nbDes choix) := hval
      refine ⟨poss, hposs, by omega, ?_⟩
      intro autre hautre
      have hb : autre.valeur ≤ maxValeur (annoter nbDes choix) :=
        le_foldl_max_mem _ 0 _ (List.mem_map_of_mem _ hautre)
      omega
  · intro hnone
    unfold probaFinArret at hnone ⊢
    by_cases hcond : score + mise + maxValeur (annoter nbDes choix) = 10000
    · exact absurd (by simp [hcond]) hnone
    · simp [hcond]
  · rw [calcProbaFin_eq]
    unfold pfinBody
    refine List.foldl_ext _ _ _ (fun acc sc _ => ?_)
    simp only [List.range_zero, List.foldl_nil]
    have hinner : sc.1.foldl (fun pm poss =>
          if SCORE_MAX ≤ score + (mise + poss.valeur) then pm else pm)
          (probaFinArret score mise sc.1)
        = probaFinArret score mise sc.1 := by
      rw [show (fun (pm : ℚ) (poss : Possibilite) =>
            if SCORE_MAX ≤ score + (mise + poss.valeur) then pm else pm)
          = fun pm _ => pm from ?_]
      · exact foldl_const_acc _ _
      · funext pm poss
        split <;> rfl
    rw [hinner]

/-- Witness for the amended C4 at a concrete state. -/
theorem c4_proba_fin_arret_amende_witness :
    1 ≤ 1 ∧ 1 ≤ NB_DES_TOT ∧
      [Combinaison.FacesSimples 1 0] ∈ choixList 1 ∧
      [Combinaison.FacesSimples 1 0] ≠ ([] : List Combinaison) ∧
      (probaFinArret 0 9900 (annoter 1 [Combinaison.FacesSimples 1 0]) = 1 ↔
        0 + 9900 + maxValeur (annoter 1 [Combinaison.FacesSimples 1 0]) = 10000) :=
  ⟨le_rfl, by decide, by decide, by decide,
    (c4_proba_fin_arret_amende 1 le_rfl (by decide)
      [Combinaison.FacesSimples 1 0] (by decide) (by decide) 0 9900).1⟩

/-! ## C7 — the loose-singles combinations are exactly the two final loops -/

/-- Does a combination have the `FacesSimples` (LooseSingles) shape? -/
def estFacesSimples : Combinaison → Bool
  | .FacesSimples _ _ => true
  | _ => false

/-- C7 — For every histogram, the `FacesSimples` combinations emitted are
exactly `FacesSimples (ones, 0)` for `ones` from 1 to `histo[0] mod 3`
followed by `FacesSimples (histo[0] mod 3, fives)` for `fives` from 1 to
`histo[4] mod 3`: a LooseSingles containing fives is only ever emitted with
the maximal eligible ones-count. -/
theorem c7_faces_simples_exactes (histo : HistogrammeFaces) :
    (enumererCombinaisons histo).filter estFacesSimples
      = (List.range (histo 0 % 3)).map (fun nbUn => Combinaison.FacesSimples (nbUn + 1) 0) ++
        (List.range (histo 4 % 3)).map
          (fun nbCinq => Combinaison.FacesSimples (histo 0 % 3) (nbCinq + 1)) := by
  rw [enumererCombinaisons_eq]
  unfold enumBody
  rw [List.filter_append, List.filter_append, List.filter_append, List.filter_append]
  have h1 : (if ∀ i, histo i = 1 then [Combinaison.Suite] else []).filter estFacesSimples
      = [] := by
    split <;> rfl
  have h2 : (if numPaires histo = 3 then [Combinaison.TriplePaire] else []).filter
      estFacesSimples = [] := by
    split <;> rfl
  have h3 : (((List.finRange NB_FACES).map
        (blocBrelan histo enumererCombinaisons)).flatten).filter estFacesSimples = [] := by
    rw [List.filter_eq_nil_iff]
    intro c hc
    obtain ⟨bl, hbl, hcbl⟩ := List.mem_flatten.mp hc
    obtain ⟨i, -, rfl⟩ := List.mem_map.mp hbl
    unfold blocBrelan at hcbl
    by_cases hi : 3 ≤ histo i
    · rw [if_pos hi] at hcbl
      rcases List.mem_cons.mp hcbl with rfl | htail
      · simp [estFacesSimples]
      · obtain ⟨combi, -, hsome⟩ := List.mem_filterMap.mp htail
        rcases (combiBrelan_eq_some i combi c).mp hsome with ⟨j, -, -, rfl⟩ | ⟨u, v, -, rfl⟩
        · simp [estFacesSimples]
        · simp [estFacesSimples]
    · rw [if_neg hi] at hcbl
      exact absurd hcbl (List.not_mem_nil c)
  have h4 : ((List.range (histo 0 % 3)).map
        (fun nbUn => Combinaison.FacesSimples (nbUn + 1) 0)).filter estFacesSimples
      = (List.range (histo 0 % 3)).map (fun nbUn => Combinaison.FacesSimples (nbUn + 1) 0) := by
    rw [List.filter_eq_self]
    intro a ha
    obtain ⟨u, -, rfl⟩ := List.mem_map.mp ha
    rfl
  have h5 : ((List.range (histo 4 % 3)).map
        (fun nbCinq => Combinaison.FacesSimples (histo 0 % 3) (nbCinq + 1))).filter
        estFacesSimples
      = (List.range (histo 4 % 3)).map
          (fun nbCinq => Combinaison.FacesSimples (histo 0 % 3) (nbCinq + 1)) := by
    rw [List.filter_eq_self]
    intro a ha
    obtain ⟨v, -, rfl⟩ := List.mem_map.mp ha
    rfl
  rw [h1, h2, h3, h4, h5]
  simp

/-! ## C10 — the `unreachable!()` arm is never taken -/

lemma enum_histoSum_zero (histo : HistogrammeFaces) (h0 : histoSum histo = 0) :
    enumererCombinaisons histo = [] := by
  have hz : ∀ i, histo i = 0 := by
    intro i
    have := histo_le_histoSum histo i
    omega
  rw [enumererCombinaisons_eq]
  unfold enumBody
  have h1 : ¬ ∀ i, histo i = 1 := by
    intro h
    have := h 0
    rw [hz 0] at this
    exact absurd this (by norm_num)
  have hnp : numPaires histo = 0 := by
    unfold numPaires
    rw [show (List.finRange NB_FACES).map (fun i => histo i / 2)
        = (List.finRange NB_FACES).map (fun _ => 0) from
      List.map_congr_left (fun i _ => by rw [hz i])]
    simp
  have hbloc : (List.finRange NB_FACES).map (blocBrelan histo enumererCombinaisons)
      = (List.finRange NB_FACES).map (fun _ => ([] : List Combinaison)) := by
    refine List.map_congr_left (fun i _ => ?_)
    unfold blocBrelan
    rw [if_neg (by have := hz i; omega)]
  rw [if_neg h1, if_neg (by omega : ¬ numPaires histo = 3), hbloc, hz 0, hz 4]
  simp

/-- The combinations enumerable from a histogram of at most three dice are
only triples without extra singles, or loose singles. -/
lemma formes_sous_trois_des (histo : HistogrammeFaces) (h3 : histoSum histo ≤ 3) :
    ∀ c ∈ enumererCombinaisons histo,
      (∃ j, c = Combinaison.BrelanSimple j 0 0) ∨
      (∃ nbUn nbCinq, c = Combinaison.FacesSimples nbUn nbCinq) := by
  intro c hc
  rcases (mem_enumererCombinaisons histo c).mp hc with
    ⟨hc, hs⟩ | ⟨hc, hp⟩ | ⟨i, hi, hx⟩ | ⟨u, hu, hc⟩ | ⟨v, hv, hc⟩
  · exfalso
    have h6 : histoSum histo = 6 := by simp [histoSum, hs]
    omega
  · exfalso
    have := numPaires_le histo
    omega
  · rcases hx with rfl | ⟨combi, hcombi, hsome⟩
    · exact Or.inl ⟨i, rfl⟩
    · exfalso
      have hsub := histoSum_update_sub histo i hi
      have h3i : 3 ≤ histoSum histo := le_trans hi (histo_le_histoSum histo i)
      have hzero : histoSum (Function.update histo i (histo i - 3)) = 0 := by omega
      rw [enum_histoSum_zero _ hzero] at hcombi
      exact absurd hcombi (List.not_mem_nil combi)
  · exact Or.inr ⟨u + 1, 0, hc⟩
  · exact Or.inr ⟨histo 0 % 3, v + 1, hc⟩

/-- C10 — For every histogram of at most six dice, the `unreachable!()` arm
of the triple-handling recursion never executes: after removing a triple,
the recursive enumeration only produces `BrelanSimple _ 0 0` or
`FacesSimples` combinations — exactly the shapes the `match` of
`combiBrelan` handles before its fallback arm. -/
theorem c10_unreachable_jamais_atteint (histo : HistogrammeFaces)
    (h6 : histoSum histo ≤ 6) (i : Fin NB_FACES) (hi : 3 ≤ histo i) :
    ∀ c ∈ enumererCombinaisons (Function.update histo i (histo i - 3)),
      (∃ j, c = Combinaison.BrelanSimple j 0 0) ∨
      (∃ nbUn nbCinq, c = Combinaison.FacesSimples nbUn nbCinq) := by
  have hsub := histoSum_update_sub histo i hi
  have h3i : 3 ≤ histoSum histo := le_trans hi (histo_le_histoSum histo i)
  exact formes_sous_trois_des _ (by omega)

/-- Witness for C10 at a concrete histogram (six dice all showing one). -/
theorem c10_unreachable_jamais_atteint_witness :
    histoSum (histoOfRoll 6 0) ≤ 6 ∧ 3 ≤ histoOfRoll 6 0 0 ∧
      ∀ c ∈ enumererCombinaisons
        (Function.update (histoOfRoll 6 0) 0 (histoOfRoll 6 0 0 - 3)),
        (∃ j, c = Combinaison.BrelanSimple j 0 0) ∨
        (∃ nbUn nbCinq, c = Combinaison.FacesSimples nbUn nbCinq) :=
  ⟨by decide, by decide, c10_unreachable_jamais_atteint (histoOfRoll 6 0) (by decide) 0 (by decide)⟩

/-! ## C8 — canonical `BrelanDouble` emission -/

lemma count_filterMap_comb (g : Combinaison → Option Combinaison) (y : Combinaison) :
    ∀ l : List Combinaison, (l.filterMap g).count y = l.countP (fun x => g x == some y) := by
  intro l
  induction l with
  | nil => rfl
  | cons b t ih =>
    rw [List.countP_cons]
    cases hg : g b with
    | none =>
      rw [List.filterMap_cons_none hg, ih]
      simp
    | some z =>
      rw [List.filterMap_cons_some hg, List.count_cons, ih]
      by_cases hz : z = y
      · subst hz
        simp
      · simp [hz]

lemma count_flatten_map_fin (g : Fin NB_FACES → List Combinaison) (y : Combinaison) :
    ∀ l : List (Fin NB_FACES),
      ((l.map g).flatten).count y = (l.map (fun f => (g f).count y)).sum := by
  intro l
  induction l with
  | nil => rfl
  | cons b t ih => simp [List.count_append, ih]

lemma sum_indicator_le_one (h : Fin NB_FACES → ℕ) (j : Fin NB_FACES)
    (hle : ∀ f, h f ≤ if f = j then 1 else 0) :
    ((List.finRange NB_FACES).map h).sum ≤ 1 := by
  calc ((List.finRange NB_FACES).map h).sum
      ≤ ((List.finRange NB_FACES).map (fun f => if f = j then 1 else 0)).sum :=
        List.sum_le_sum (fun f _ => hle f)
    _ ≤ 1 := by fin_cases j <;> decide

lemma facesSimples_mem_pos (histo : HistogrammeFaces) (nbUn nbCinq : ℕ)
    (h : Combinaison.FacesSimples nbUn nbCinq ∈ enumererCombinaisons histo) :
    1 ≤ nbUn + nbCinq := by
  rcases (mem_enumererCombinaisons histo _).mp h with
    ⟨hc, -⟩ | ⟨hc, -⟩ | ⟨f, hf, hx⟩ | ⟨w, -, hc⟩ | ⟨w, -, hc⟩
  · exact absurd hc (by simp)
  · exact absurd hc (by simp)
  · rcases hx with hc | ⟨combi, -, hsome⟩
    · exact absurd hc (by simp)
    · rcases (combiBrelan_eq_some f combi _).mp hsome with ⟨j2, -, -, hc⟩ | ⟨a, b, -, hc⟩
      · exact absurd hc (by simp)
      · exact absurd hc (by simp)
  · simp only [Combinaison.FacesSimples.injEq] at hc
    omega
  · simp only [Combinaison.FacesSimples.injEq] at hc
    omega

/-- A `BrelanSimple j 0 0` is emitted at most once per histogram. -/
lemma count_brelan_simple_le_one (histo : HistogrammeFaces) (j : Fin NB_FACES) :
    (enumererCombinaisons histo).count (Combinaison.BrelanSimple j 0 0) ≤ 1 := by
  rw [enumererCombinaisons_eq]
  unfold enumBody
  rw [List.count_append, List.count_append, List.count_append, List.count_append]
  have h1 : (if ∀ i, histo i = 1 then [Combinaison.Suite] else []).count
      (Combinaison.BrelanSimple j 0 0) = 0 := by
    rw [List.count_eq_zero]
    split <;> simp
  have h2 : (if numPaires histo = 3 then [Combinaison.TriplePaire] else []).count
      (Combinaison.BrelanSimple j 0 0) = 0 := by
    rw [List.count_eq_zero]
    split <;> simp
  have h4 : ((List.range (histo 0 % 3)).map
        (fun nbUn => Combinaison.FacesSimples (nbUn + 1) 0)).count
      (Combinaison.BrelanSimple j 0 0) = 0 := by
    rw [List.count_eq_zero]
    intro hmem
    obtain ⟨u, -, hc⟩ := List.mem_map.mp hmem
    exact absurd hc (by simp)
  have h5 : ((List.range (histo 4 % 3)).map
        (fun nbCinq => Combinaison.FacesSimples (histo 0 % 3) (nbCinq + 1))).count
      (Combinaison.BrelanSimple j 0 0) = 0 := by
    rw [List.count_eq_zero]
    intro hmem
    obtain ⟨v, -, hc⟩ := List.mem_map.mp hmem
    exact absurd hc (by simp)
  have h3 : (((List.finRange NB_FACES).map
        (blocBrelan histo enumererCombinaisons)).flatten).count
      (Combinaison.BrelanSimple j 0 0) ≤ 1 := by
    rw [count_flatten_map_fin]
    refine sum_indicator_le_one _ j (fun f => ?_)
    unfold blocBrelan
    by_cases hf : 3 ≤ histo f
    · rw [if_pos hf, List.count_cons]
      have htail : ((enumererCombinaisons
            (Function.update histo f (histo f - 3))).filterMap (combiBrelan f)).count
          (Combinaison.BrelanSimple j 0 0) = 0 := by
        rw [count_filterMap_comb, List.countP_eq_zero]
        intro x hx
        simp only [beq_iff_eq]
        intro hsome
        rcases (combiBrelan_eq_some f x _).mp hsome with ⟨j2, -, -, hc⟩ | ⟨a, b, hxfs, hc⟩
        · exact absurd hc (by simp)
        · simp only [Combinaison.BrelanSimple.injEq] at hc
          obtain ⟨-, ha, hb⟩ := hc
          subst hxfs
          have := facesSimples_mem_pos _ a b hx
          omega
      rw [htail]
      by_cases hfj : f = j
      · subst hfj
        simp
      · have hne : (Combinaison.BrelanSimple f 0 0 == Combinaison.BrelanSimple j 0 0)
            = false := by
          simp [hfj]
        rw [hne]
        simp [hfj]
    · rw [if_neg hf]
      simp
  omega

/-- C8 — Every `BrelanDouble` the enumerator emits has its two face indices
in non-decreasing order, and the same (canonically ordered) pair is never
emitted twice. -/
theorem c8_brelan_double_canonique (histo : HistogrammeFaces) (i j : Fin NB_FACES) :
    (Combinaison.BrelanDouble i j ∈ enumererCombinaisons histo → i ≤ j) ∧
    (enumererCombinaisons histo).count (Combinaison.BrelanDouble i j) ≤ 1 := by
  constructor
  · intro hmem
    rcases (mem_enumererCombinaisons histo _).mp hmem with
      ⟨hc, -⟩ | ⟨hc, -⟩ | ⟨f, hf, hx⟩ | ⟨u, -, hc⟩ | ⟨v, -, hc⟩
    · exact absurd hc (by simp)
    · exact absurd hc (by simp)
    · rcases hx with hc | ⟨combi, -, hsome⟩
      · exact absurd hc (by simp)
      · rcases (combiBrelan_eq_some f combi _).mp hsome with
          ⟨j2, -, hle, hc⟩ | ⟨a, b, -, hc⟩
        · simp only [Combinaison.BrelanDouble.injEq] at hc
          obtain ⟨rfl, rfl⟩ := hc
          exact hle
        · exact absurd hc (by simp)
    · exact absurd hc (by simp)
    · exact absurd hc (by simp)
  · rw [enumererCombinaisons_eq]
    unfold enumBody
    rw [List.count_append, List.count_append, List.count_append, List.count_append]
    have h1 : (if ∀ k, histo k = 1 then [Combinaison.Suite] else []).count
        (Combinaison.BrelanDouble i j) = 0 := by
      rw [List.count_eq_zero]
      split <;> simp
    have h2 : (if numPaires histo = 3 then [Combinaison.TriplePaire] else []).count
        (Combinaison.BrelanDouble i j) = 0 := by
      rw [List.count_eq_zero]
      split <;> simp
    have h4 : ((List.range (histo 0 % 3)).map
          (fun nbUn => Combinaison.FacesSimples (nbUn + 1) 0)).count
        (Combinaison.BrelanDouble i j) = 0 := by
      rw [List.count_eq_zero]
      intro hmem
      obtain ⟨u, -, hc⟩ := List.mem_map.mp hmem
      exact absurd hc (by simp)
    have h5 : ((List.range (histo 4 % 3)).map
          (fun nbCinq => Combinaison.FacesSimples (histo 0 % 3) (nbCinq + 1))).count
        (Combinaison.BrelanDouble i j) = 0 := by
      rw [List.count_eq_zero]
      intro hmem
      obtain ⟨v, -, hc⟩ := List.mem_map.mp hmem
      exact absurd hc (by simp)
    have h3 : (((List.finRange NB_FACES).map
          (blocBrelan histo enumererCombinaisons)).flatten).count
        (Combinaison.BrelanDouble i j) ≤ 1 := by
      rw [count_flatten_map_fin]
      refine sum_indicator_le_one _ i (fun f => ?_)
      unfold blocBrelan
      by_cases hf : 3 ≤ histo f
      · rw [if_pos hf, List.count_cons]
        have hhead : (Combinaison.BrelanSimple f 0 0 == Combinaison.BrelanDouble i j)
            = false := by
          simp
        rw [hhead]
        simp only [Bool.false_eq_true, if_false, Nat.add_zero]
        rw [count_filterMap_comb]
        by_cases hfi : f = i
        · subst hfi
          have hmono : ((enumererCombinaisons
                (Function.update histo f (histo f - 3))).countP
              (fun x => combiBrelan f x == some (Combinaison.BrelanDouble f j)))
              ≤ ((enumererCombinaisons
                (Function.update histo f (histo f - 3))).countP
              (fun x => x == Combinaison.BrelanSimple j 0 0)) := by
            refine List.countP_mono_left (fun x hx => ?_)
            simp only [beq_iff_eq]
            intro hsome
            rcases (combiBrelan_eq_some f x _).mp hsome with
              ⟨j2, hx2, -, hc⟩ | ⟨a, b, -, hc⟩
            · simp only [Combinaison.BrelanDouble.injEq] at hc
              obtain ⟨-, rfl⟩ := hc
              exact hx2
            · exact absurd hc (by simp)
          have hcount := count_brelan_simple_le_one
            (Function.update histo f (histo f - 3)) j
          rw [List.count_eq_countP] at hcount
          simp only [eq_self_iff_true, if_true]
          omega
        · have hzero : ((enumererCombinaisons
              (Function.update histo f (histo f - 3))).countP
              (fun x => combiBrelan f x == some (Combinaison.BrelanDouble i j))) = 0 := by
            rw [List.countP_eq_zero]
            intro x hx
            simp only [beq_iff_eq]
            intro hsome
            rcases (combiBrelan_eq_some f x _).mp hsome with
              ⟨j2, -, -, hc⟩ | ⟨a, b, -, hc⟩
            · simp only [Combinaison.BrelanDouble.injEq] at hc
              exact hfi hc.1.symm
            · exact absurd hc (by simp)
          rw [hzero]
          simp
      · rw [if_neg hf]
        simp
    omega

/-- Witness for C8 at a concrete histogram (six dice all showing one, whose
choice-set contains `BrelanDouble 0 0`). -/
theorem c8_brelan_double_canonique_witness :
    (0 : Fin NB_FACES) ≤ 0 ∧
      (enumererCombinaisons (histoOfRoll 6 0)).count (Combinaison.BrelanDouble 0 0) ≤ 1 :=
  ⟨(c8_brelan_double_canonique (histoOfRoll 6 0) 0 0).1 (by decide),
    (c8_brelan_double_canonique (histoOfRoll 6 0) 0 0).2⟩

/-! ## C9 — the memo caches are write-once

`calcul_esperance` (`stats.rs`) consults `stats_jet.esperance` before
computing, and caches fresh results with
`assert_eq!(map.insert(key, value), None)`: a duplicate insertion is a
panic.  We model the caches explicitly (state passing), the panic as
`Except.error`, and prove the assertion can never fire. -/

/-- Memo key of `stats.rs`: `(score, mise, max_relances)`. -/
abbrev Cle : Type := ℕ × ℕ × ℕ

/-- One memo cache (`RefCell<HashMap<(Valeur, Valeur, usize), Flottant>>`),
modelled as an association list. -/
abbrev Memo : Type := List (Cle × ℚ)

/-- The six caches of `Stats`, one per dice count (the source indexes
`stats_jets[nb_des - 1]`; we index by `nb_des` directly). -/
abbrev MemoState : Type := ℕ → Memo

/-- `HashMap::get` on a memo cache. -/
def memoLookup : Memo → Cle → Option ℚ
  | [], _ => none
  | (k, v) :: rest, cle => if k = cle then some v else memoLookup rest cle

/-- `HashMap::insert` of a fresh entry into the cache of dice count
`nbDes`. -/
def memoInsere (st : MemoState) (nbDes : ℕ) (cle : Cle) (v : ℚ) : MemoState :=
  fun n => if n = nbDes then (cle, v) :: st n else st n

lemma memoLookup_insere (st : MemoState) (nbDes : ℕ) (cle : Cle) (w : ℚ)
    (n : ℕ) (cle2 : Cle) :
    memoLookup (memoInsere st nbDes cle w n) cle2
      = if n = nbDes ∧ cle = cle2 then some w else memoLookup (st n) cle2 := by
  unfold memoInsere
  by_cases hn : n = nbDes
  · rw [if_pos hn]
    show (if cle = cle2 then some w else memoLookup (st n) cle2) = _
    by_cases hc : cle = cle2
    · rw [if_pos hc, if_pos ⟨hn, hc⟩]
    · rw [if_neg hc, if_neg (by tauto)]
  · rw [if_neg hn, if_neg (by tauto)]

/-- The reroll loop body of the memoised `calcul_esperance` (`stats.rs`
lines 214-221): evaluate one smaller bound and fold the maximum. -/
def espMemoRelance (recur : ℕ → ℕ → ℕ → ℕ → MemoState → Except Unit (ℚ × MemoState))
    (score nbDesRelance nouvelleMise : ℕ) :
    (ℚ × MemoState) → ℕ → Except Unit (ℚ × MemoState) :=
  fun acc3 numRelancesPred => do
    let r ← recur score nbDesRelance nouvelleMise numRelancesPred acc3.2
    pure (max acc3.1 r.1, r.2)

/-- One iteration of the per-combination loop of the memoised
`calcul_esperance` (`stats.rs` lines 203-222). -/
def espMemoStepPoss (recur : ℕ → ℕ → ℕ → ℕ → MemoState → Except Unit (ℚ × MemoState))
    (score mise maxRelances : ℕ) (arretPossible : Bool) :
    (ℚ × MemoState) → Possibilite → Except Unit (ℚ × MemoState) :=
  fun acc2 poss =>
    let nouvelleMise := mise + poss.valeur
    let em := if arretPossible then max acc2.1 (nouvelleMise : ℚ) else acc2.1
    if SCORE_MAX ≤ score + nouvelleMise then pure (em, acc2.2)
    else (List.range maxRelances).foldlM
      (espMemoRelance recur score poss.nbDesRelance nouvelleMise) (em, acc2.2)

/-- One iteration of the per-choice-set loop of the memoised
`calcul_esperance` (`stats.rs` lines 190-227). -/
def espMemoStepChoix (recur : ℕ → ℕ → ℕ → ℕ → MemoState → Except Unit (ℚ × MemoState))
    (score mise maxRelances : ℕ) :
    (ℚ × MemoState) → (List Possibilite × ℚ) → Except Unit (ℚ × MemoState) :=
  fun acc sc => do
    let valeurMax := maxValeur sc.1
    let arretPossible := decide (score + mise + valeurMax ≤ SCORE_MAX)
    let inner ← sc.1.foldlM (espMemoStepPoss recur score mise maxRelances arretPossible)
      ((0 : ℚ), acc.2)
    pure (acc.1 + inner.1 * sc.2, inner.2)

/-- Body of `calcul_esperance` (`stats.rs` lines 173-236) with the memo
caches threaded explicitly and the recursive call abstracted: consult the
cache first and return the hit; otherwise run the weighted-sum/max loops,
then insert the fresh value — where the source asserts
`insert(...) = None`, a key already present raises `Except.error`
(the panic of `assert_eq!`). -/
def espMemoBody : SolverBody (MemoState → Except Unit (ℚ × MemoState)) :=
  fun recur score nbDes mise maxRelances st =>
  match memoLookup (st nbDes) (score, mise, maxRelances) with
  | some esperanceLancer => Except.ok (esperanceLancer, st)
  | none => do
    let res ← (statsChoix nbDes).foldlM (espMemoStepChoix recur score mise maxRelances)
      ((0 : ℚ), st)
    match memoLookup (res.2 nbDes) (score, mise, maxRelances) with
    | some _ => Except.error ()
    | none => Except.ok (res.1, memoInsere res.2 nbDes (score, mise, maxRelances) res.1)

lemma foldlM_ext_except {α β : Type} (f g : α → β → Except Unit α) :
    ∀ l : List β, (∀ a x, x ∈ l → f a x = g a x) →
      ∀ a : α, l.foldlM f a = l.foldlM g a := by
  intro l
  induction l with
  | nil => intro _ a; rfl
  | cons b t ih =>
    intro H a
    rw [List.foldlM_cons, List.foldlM_cons, H a b (List.mem_cons_self b t)]
    refine congrArg _ ?_
    funext a2
    exact ih (fun a3 x hx => H a3 x (List.mem_cons_of_mem _ hx)) a2

lemma espMemoBody_congr : BodyCongr espMemoBody := by
  intro recur recur' score nbDes mise bound H
  funext st
  unfold espMemoBody
  cases memoLookup (st nbDes) (score, mise, bound) with
  | some v => rfl
  | none =>
    dsimp only
    congr 1
    refine foldlM_ext_except _ _ _ (fun acc sc hsc => ?_) _
    unfold espMemoStepChoix
    dsimp only
    congr 1
    refine foldlM_ext_except _ _ _ (fun acc2 poss hposs => ?_) _
    unfold espMemoStepPoss
    dsimp only
    by_cases hstop : SCORE_MAX ≤ score + (mise + poss.valeur)
    · rw [if_pos hstop, if_pos hstop]
    · rw [if_neg hstop, if_neg hstop]
      refine foldlM_ext_except _ _ _ (fun acc3 k hk => ?_) _
      unfold espMemoRelance
      rw [H _ _ _ _ (List.mem_range.mp hk)]

/-- `calcul_esperance` with its memo cache, as an explicit state-passing
function; `Except.error` is the `assert_eq!` panic on duplicate insertion. -/
def calcEsperanceMemo : ℕ → ℕ → ℕ → ℕ → MemoState → Except Unit (ℚ × MemoState) :=
  boundedSolve espMemoBody (fun _ _ _ _ _ => Except.error ())

/-- The recursion equation of the memoised `calcul_esperance`. -/
theorem calcEsperanceMemo_eq (score nbDes mise bound : ℕ) :
    calcEsperanceMemo score nbDes mise bound
      = espMemoBody calcEsperanceMemo score nbDes mise bound :=
  boundedSolve_eq espMemoBody_congr score nbDes mise bound

/-- `st'` extends `st`: every cached entry is preserved with its value, and
every new entry's bound component is strictly below `bound`. -/
def MemoExtension (st st' : MemoState) (bound : ℕ) : Prop :=
  (∀ n cle v, memoLookup (st n) cle = some v → memoLookup (st' n) cle = some v) ∧
  (∀ n cle v, memoLookup (st' n) cle = some v →
    memoLookup (st n) cle = some v ∨ cle.2.2 < bound)

lemma memoExtension_refl (st : MemoState) (bound : ℕ) : MemoExtension st st bound :=
  ⟨fun _ _ _ h => h, fun _ _ _ h => Or.inl h⟩

lemma memoExtension_trans {st1 st2 st3 : MemoState} {bound : ℕ}
    (h12 : MemoExtension st1 st2 bound) (h23 : MemoExtension st2 st3 bound) :
    MemoExtension st1 st3 bound := by
  refine ⟨fun n cle v h => h23.1 n cle v (h12.1 n cle v h), fun n cle v h => ?_⟩
  rcases h23.2 n cle v h with h2 | hlt
  · exact h12.2 n cle v h2
  · exact Or.inr hlt

lemma memoExtension_mono {st st' : MemoState} {b b' : ℕ}
    (h : MemoExtension st st' b) (hb : b ≤ b') : MemoExtension st st' b' := by
  refine ⟨h.1, fun n cle v hv => ?_⟩
  rcases h.2 n cle v hv with h2 | hlt
  · exact Or.inl h2
  · exact Or.inr (lt_of_lt_of_le hlt hb)

lemma foldlM_memoExtension {β : Type} (bound : ℕ)
    (step : (ℚ × MemoState) → β → Except Unit (ℚ × MemoState)) :
    ∀ l : List β,
      (∀ acc x, x ∈ l → ∃ acc', step acc x = Except.ok acc' ∧
        MemoExtension acc.2 acc'.2 bound) →
      ∀ acc : ℚ × MemoState, ∃ acc', l.foldlM step acc = Except.ok acc' ∧
        MemoExtension acc.2 acc'.2 bound := by
  intro l
  induction l with
  | nil =>
    intro _ acc
    exact ⟨acc, rfl, memoExtension_refl _ _⟩
  | cons b t ih =>
    intro H acc
    obtain ⟨a1, hstep, hext1⟩ := H acc b (List.mem_cons_self b t)
    obtain ⟨a2, hrest, hext2⟩ := ih (fun a x hx => H a x (List.mem_cons_of_mem _ hx)) a1
    refine ⟨a2, ?_, memoExtension_trans hext1 hext2⟩
    rw [List.foldlM_cons, hstep]
    exact hrest

/-- The memoised `calcul_esperance` never panics: for every input state it
returns `Except.ok`, preserving all existing cache entries and adding only
entries whose bound component does not exceed its own bound. -/
lemma calcEsperanceMemo_ok :
    ∀ bound score nbDes mise (st : MemoState),
      ∃ v st', calcEsperanceMemo score nbDes mise bound st = Except.ok (v, st') ∧
        MemoExtension st st' (bound + 1) := by
  intro bound
  induction bound using Nat.strong_induction_on with
  | _ bound ih =>
    intro score nbDes mise st
    have heq := congrFun (calcEsperanceMemo_eq score nbDes mise bound) st
    rw [heq]
    unfold espMemoBody
    cases hlook : memoLookup (st nbDes) (score, mise, bound) with
    | some v => exact ⟨v, st, rfl, memoExtension_refl _ _⟩
    | none =>
      dsimp only
      have Hrelance : ∀ (nbDesRelance nouvelleMise : ℕ) (acc : ℚ × MemoState) (k : ℕ),
          k ∈ List.range bound →
          ∃ acc', espMemoRelance calcEsperanceMemo score nbDesRelance nouvelleMise acc k
              = Except.ok acc' ∧ MemoExtension acc.2 acc'.2 bound := by
        intro nbDesRelance nouvelleMise acc k hk
        have hklt := List.mem_range.mp hk
        obtain ⟨v, st', heqk, hext⟩ := ih k hklt score nbDesRelance nouvelleMise acc.2
        refine ⟨(max acc.1 v, st'), ?_, memoExtension_mono hext (by omega)⟩
        unfold espMemoRelance
        rw [heqk]
        rfl
      have Hposs : ∀ (arretPossible : Bool) (acc2 : ℚ × MemoState) (poss : Possibilite),
          poss ∈ ([] : List Possibilite) ∨ True →
          ∃ acc', espMemoStepPoss calcEsperanceMemo score mise bound arretPossible acc2 poss
              = Except.ok acc' ∧ MemoExtension acc2.2 acc'.2 bound := by
        intro arretPossible acc2 poss _
        unfold espMemoStepPoss
        dsimp only
        by_cases hstop : SCORE_MAX ≤ score + (mise + poss.valeur)
        · rw [if_pos hstop]
          exact ⟨_, rfl, memoExtension_refl _ _⟩
        · rw [if_neg hstop]
          exact foldlM_memoExtension bound _ (List.range bound)
            (fun acc3 k hk => Hrelance poss.nbDesRelance (mise + poss.valeur) acc3 k hk) _
      have Hchoix : ∀ (acc : ℚ × MemoState) (sc : List Possibilite × ℚ),
          sc ∈ statsChoix nbDes →
          ∃ acc', espMemoStepChoix calcEsperanceMemo score mise bound acc sc
              = Except.ok acc' ∧ MemoExtension acc.2 acc'.2 bound := by
        intro acc sc _
        unfold espMemoStepChoix
        dsimp only
        obtain ⟨inner, hinner, hext⟩ := foldlM_memoExtension bound _ sc.1
          (fun acc2 poss hposs => Hposs _ acc2 poss (Or.inr trivial)) ((0 : ℚ), acc.2)
        refine ⟨(acc.1 + inner.1 * sc.2, inner.2), ?_, hext⟩
        rw [hinner]
        rfl
      obtain ⟨res, hres, hext⟩ := foldlM_memoExtension bound _ (statsChoix nbDes)
        Hchoix ((0 : ℚ), st)
      rw [hres]
      have hstill : memoLookup (res.2 nbDes) (score, mise, bound) = none := by
        cases hlook2 : memoLookup (res.2 nbDes) (score, mise, bound) with
        | none => rfl
        | some w =>
          rcases hext.2 nbDes (score, mise, bound) w hlook2 with hold | hlt
          · rw [hlook] at hold
            exact absurd hold (by simp)
          · have hred : ((score, mise, bound) : Cle).2.2 = bound := rfl
            rw [hred] at hlt
            exact absurd hlt (lt_irrefl bound)
      refine ⟨res.1, memoInsere res.2 nbDes (score, mise, bound) res.1, ?_, ?_, ?_⟩
      · show (match memoLookup (res.2 nbDes) (score, mise, bound) with
          | some _ => Except.error ()
          | none => Except.ok (res.1, memoInsere res.2 nbDes (score, mise, bound) res.1))
          = Except.ok (res.1, memoInsere res.2 nbDes (score, mise, bound) res.1)
        rw [hstill]
      · intro n cle v hv
        have h2 : memoLookup (res.2 n) cle = some v := hext.1 n cle v hv
        rw [memoLookup_insere]
        by_cases hkey : n = nbDes ∧ ((score, mise, bound) : Cle) = cle
        · exfalso
          obtain ⟨hn, hcle⟩ := hkey
          rw [hn, ← hcle, hlook] at hv
          exact absurd hv (by simp)
        · rw [if_neg hkey]
          exact h2
      · intro n cle v hv
        rw [memoLookup_insere] at hv
        by_cases hkey : n = nbDes ∧ ((score, mise, bound) : Cle) = cle
        · right
          rw [← hkey.2]
          exact Nat.lt_succ_self bound
        · rw [if_neg hkey] at hv
          rcases hext.2 n cle v hv with hold | hlt
          · exact Or.inl hold
          · exact Or.inr (by omega)

/-- One iteration of the per-combination loop of the memoised
`calcul_proba_fin` (`stats.rs` lines 269-280); the reroll loop is the same
`espMemoRelance` fold. -/
def pfinMemoStepPoss (recur : ℕ → ℕ → ℕ → ℕ → MemoState → Except Unit (ℚ × MemoState))
    (score mise maxRelances : ℕ) :
    (ℚ × MemoState) → Possibilite → Except Unit (ℚ × MemoState) :=
  fun acc2 poss =>
    let nouvelleMise := mise + poss.valeur
    if SCORE_MAX ≤ score + nouvelleMise then pure acc2
    else (List.range maxRelances).foldlM
      (espMemoRelance recur score poss.nbDesRelance nouvelleMise) acc2

/-- One iteration of the per-choice-set loop of the memoised
`calcul_proba_fin` (`stats.rs` lines 256-284): the fold starts from the 0/1
stop payoff `probaFinArret`. -/
def pfinMemoStepChoix (recur : ℕ → ℕ → ℕ → ℕ → MemoState → Except Unit (ℚ × MemoState))
    (score mise maxRelances : ℕ) :
    (ℚ × MemoState) → (List Possibilite × ℚ) → Except Unit (ℚ × MemoState) :=
  fun acc sc => do
    let inner ← sc.1.foldlM (pfinMemoStepPoss recur score mise maxRelances)
      (probaFinArret score mise sc.1, acc.2)
    pure (acc.1 + inner.1 * sc.2, inner.2)

/-- Body of `calcul_proba_fin` (`stats.rs` lines 239-293) with its own memo
cache (`stats_jet.proba_fin`) threaded explicitly: same write-once
discipline as `espMemoBody`. -/
def pfinMemoBody : SolverBody (MemoState → Except Unit (ℚ × MemoState)) :=
  fun recur score nbDes mise maxRelances st =>
  match memoLookup (st nbDes) (score, mise, maxRelances) with
  | some probaFinPartie => Except.ok (probaFinPartie, st)
  | none => do
    let res ← (statsChoix nbDes).foldlM (pfinMemoStepChoix recur score mise maxRelances)
      ((0 : ℚ), st)
    match memoLookup (res.2 nbDes) (score, mise, maxRelances) with
    | some _ => Except.error ()
    | none => Except.ok (res.1, memoInsere res.2 nbDes (score, mise, maxRelances) res.1)

lemma pfinMemoBody_congr : BodyCongr pfinMemoBody := by
  intro recur recur' score nbDes mise bound H
  funext st
  unfold pfinMemoBody
  cases memoLookup (st nbDes) (score, mise, bound) with
  | some v => rfl
  | none =>
    dsimp only
    congr 1
    refine foldlM_ext_except _ _ _ (fun acc sc hsc => ?_) _
    unfold pfinMemoStepChoix
    congr 1
    refine foldlM_ext_except _ _ _ (fun acc2 poss hposs => ?_) _
    unfold pfinMemoStepPoss
    dsimp only
    by_cases hstop : SCORE_MAX ≤ score + (mise + poss.valeur)
    · rw [if_pos hstop, if_pos hstop]
    · rw [if_neg hstop, if_neg hstop]
      refine foldlM_ext_except _ _ _ (fun acc3 k hk => ?_) _
      unfold espMemoRelance
      rw [H _ _ _ _ (List.mem_range.mp hk)]

/-- `calcul_proba_fin` with its memo cache, as an explicit state-passing
function; `Except.error` is the `assert_eq!` panic on duplicate insertion. -/
def calcProbaFinMemo : ℕ → ℕ → ℕ → ℕ → MemoState → Except Unit (ℚ × MemoState) :=
  boundedSolve pfinMemoBody (fun _ _ _ _ _ => Except.error ())

/-- The recursion equation of the memoised `calcul_proba_fin`. -/
theorem calcProbaFinMemo_eq (score nbDes mise bound : ℕ) :
    calcProbaFinMemo score nbDes mise bound
      = pfinMemoBody calcProbaFinMemo score nbDes mise bound :=
  boundedSolve_eq pfinMemoBody_congr score nbDes mise bound

/-- The memoised `calcul_proba_fin` never panics. -/
lemma calcProbaFinMemo_ok :
    ∀ bound score nbDes mise (st : MemoState),
      ∃ v st', calcProbaFinMemo score nbDes mise bound st = Except.ok (v, st') ∧
        MemoExtension st st' (bound + 1) := by
  intro bound
  induction bound using Nat.strong_induction_on with
  | _ bound ih =>
    intro score nbDes mise st
    have heq := congrFun (calcProbaFinMemo_eq score nbDes mise bound) st
    rw [heq]
    unfold pfinMemoBody
    cases hlook : memoLookup (st nbDes) (score, mise, bound) with
    | some v => exact ⟨v, st, rfl, memoExtension_refl _ _⟩
    | none =>
      dsimp only
      have Hrelance : ∀ (nbDesRelance nouvelleMise : ℕ) (acc : ℚ × MemoState) (k : ℕ),
          k ∈ List.range bound →
          ∃ acc', espMemoRelance calcProbaFinMemo score nbDesRelance nouvelleMise acc k
              = Except.ok acc' ∧ MemoExtension acc.2 acc'.2 bound := by
        intro nbDesRelance nouvelleMise acc k hk
        have hklt := List.mem_range.mp hk
        obtain ⟨v, st', heqk, hext⟩ := ih k hklt score nbDesRelance nouvelleMise acc.2
        refine ⟨(max acc.1 v, st'), ?_, memoExtension_mono hext (by omega)⟩
        unfold espMemoRelance
        rw [heqk]
        rfl
      have Hposs : ∀ (acc2 : ℚ × MemoState) (poss : Possibilite),
          ∃ acc', pfinMemoStepPoss calcProbaFinMemo score mise bound acc2 poss
              = Except.ok acc' ∧ MemoExtension acc2.2 acc'.2 bound := by
        intro acc2 poss
        unfold pfinMemoStepPoss
        dsimp only
        by_cases hstop : SCORE_MAX ≤ score + (mise + poss.valeur)
        · rw [if_pos hstop]
          exact ⟨acc2, rfl, memoExtension_refl _ _⟩
        · rw [if_neg hstop]
          exact foldlM_memoExtension bound _ (List.range bound)
            (fun acc3 k hk => Hrelance poss.nbDesRelance (mise + poss.valeur) acc3 k hk) _
      have Hchoix : ∀ (acc : ℚ × MemoState) (sc : List Possibilite × ℚ),
          sc ∈ statsChoix nbDes →
          ∃ acc', pfinMemoStepChoix calcProbaFinMemo score mise bound acc sc
              = Except.ok acc' ∧ MemoExtension acc.2 acc'.2 bound := by
        intro acc sc _
        unfold pfinMemoStepChoix
        obtain ⟨inner, hinner, hext⟩ := foldlM_memoExtension bound _ sc.1
          (fun acc2 poss hposs => Hposs acc2 poss) (probaFinArret score mise sc.1, acc.2)
        refine ⟨(acc.1 + inner.1 * sc.2, inner.2), ?_, hext⟩
        rw [hinner]
        rfl
      obtain ⟨res, hres, hext⟩ := foldlM_memoExtension bound _ (statsChoix nbDes)
        Hchoix ((0 : ℚ), st)
      rw [hres]
      have hstill : memoLookup (res.2 nbDes) (score, mise, bound) = none := by
        cases hlook2 : memoLookup (res.2 nbDes) (score, mise, bound) with
        | none => rfl
        | some w =>
          rcases hext.2 nbDes (score, mise, bound) w hlook2 with hold | hlt
          · rw [hlook] at hold
            exact absurd hold (by simp)
          · have hred : ((score, mise, bound) : Cle).2.2 = bound := rfl
            rw [hred] at hlt
            exact absurd hlt (lt_irrefl bound)
      refine ⟨res.1, memoInsere res.2 nbDes (score, mise, bound) res.1, ?_, ?_, ?_⟩
      · show (match memoLookup (res.2 nbDes) (score, mise, bound) with
          | some _ => Except.error ()
          | none => Except.ok (res.1, memoInsere res.2 nbDes (score, mise, bound) res.1))
          = Except.ok (res.1, memoInsere res.2 nbDes (score, mise, bound) res.1)
        rw [hstill]
      · intro n cle v hv
        have h2 : memoLookup (res.2 n) cle = some v := hext.1 n cle v hv
        rw [memoLookup_insere]
        by_cases hkey : n = nbDes ∧ ((score, mise, bound) : Cle) = cle
        · exfalso
          obtain ⟨hn, hcle⟩ := hkey
          rw [hn, ← hcle, hlook] at hv
          exact absurd hv (by simp)
        · rw [if_neg hkey]
          exact h2
      · intro n cle v hv
        rw [memoLookup_insere] at hv
        by_cases hkey : n = nbDes ∧ ((score, mise, bound) : Cle) = cle
        · right
          rw [← hkey.2]
          exact Nat.lt_succ_self bound
        · rw [if_neg hkey] at hv
          rcases hext.2 n cle v hv with hold | hlt
          · exact Or.inl hold
          · exact Or.inr (by omega)

/-- C9 — Both memo caches are write-once per key: each solver call first
consults its memo and returns the cached value unchanged when the key
(score, stake, bound) is present; when it computes a fresh value, the
insertion always finds the slot empty, so the `assert_eq!(insert, None)`
panic (modelled as `Except.error`) never fires and every cached entry is
preserved with its original value — never recovered from or silently
overwritten. -/
theorem c9_memo_ecrit_une_fois (score nbDes mise bound : ℕ) (st : MemoState) :
    ((∀ v, memoLookup (st nbDes) (score, mise, bound) = some v →
        calcEsperanceMemo score nbDes mise bound st = Except.ok (v, st)) ∧
      ∃ v st', calcEsperanceMemo score nbDes mise bound st = Except.ok (v, st') ∧
        ∀ n cle w, memoLookup (st n) cle = some w → memoLookup (st' n) cle = some w) ∧
    ((∀ v, memoLookup (st nbDes) (score, mise, bound) = some v →
        calcProbaFinMemo score nbDes mise bound st = Except.ok (v, st)) ∧
      ∃ v st', calcProbaFinMemo score nbDes mise bound st = Except.ok (v, st') ∧
        ∀ n cle w, memoLookup (st n) cle = some w → memoLookup (st' n) cle = some w) := by
  constructor
  · constructor
    · intro v hv
      rw [congrFun (calcEsperanceMemo_eq score nbDes mise bound) st]
      unfold espMemoBody
      rw [hv]
    · obtain ⟨v, st', heq, hext⟩ := calcEsperanceMemo_ok bound score nbDes mise st
      exact ⟨v, st', heq, hext.1⟩
  · constructor
    · intro v hv
      rw [congrFun (calcProbaFinMemo_eq score nbDes mise bound) st]
      unfold pfinMemoBody
      rw [hv]
    · obtain ⟨v, st', heq, hext⟩ := calcProbaFinMemo_ok bound score nbDes mise st
      exact ⟨v, st', heq, hext.1⟩

/-- Witness for C9 at a concrete state whose cache already holds the key. -/
theorem c9_memo_ecrit_une_fois_witness :
    memoLookup ((fun _ => [(((0 : ℕ), (0 : ℕ), (0 : ℕ)), (5 : ℚ))] : MemoState) 1)
        (0, 0, 0) = some 5 ∧
    calcEsperanceMemo 0 1 0 0 (fun _ => [(((0 : ℕ), (0 : ℕ), (0 : ℕ)), (5 : ℚ))])
      = Except.ok (5, fun _ => [(((0 : ℕ), (0 : ℕ), (0 : ℕ)), (5 : ℚ))]) :=
  ⟨rfl,
    (c9_memo_ecrit_une_fois 0 1 0 0
      (fun _ => [(((0 : ℕ), (0 : ℕ), (0 : ℕ)), (5 : ℚ))])).1.1 5 rfl⟩

end Mitraillette
